import Mathlib

/-!
Verification of the data-normalization / deduplication pipeline of the
`educationagent` repository, shallowly embedded in Lean.

The embedding follows the Python sources:
  * `src/data/validate_clean.py` — local cleaner (`_read_parquet`,
    `_normalize_strings`, `_drop_empties`, `_dedupe`, `clean_one`);
  * `src/data/spark_clean.py`    — distributed unifier (`normalize_prompt`,
    schema re-enforcement, length/whitespace filter, global dedup, stats);
  * `src/data/download_hf.py`    — source mappers (`_first`, `map_leetcode`,
    `map_apps`, `map_codeforces`, `map_codesearchnet`, `_enforce_unified`);
  * `src/schemas/columns.py`     — the unified column set.

Strings are modelled as `List Char` at the transformation level (wrapped
into `String` at the interface).  Python regular-expression substitutions
are modelled by hand-rolled scanners that reproduce the (deterministic)
behaviour of the concrete patterns used by the code; cryptographic hashes
(`hashlib.sha256`, Spark's `sha2`) are modelled by the exact byte string
fed to the hash, i.e. two rows get the same modelled key iff the real code
hashes the same bytes (hash collisions on distinct inputs are ignored, as
the spec itself treats them as negligible).
-/

namespace EduAgent

/-- Python's `\s` whitespace class, restricted to the ASCII range that the
data pipeline manipulates: space, tab, newline, carriage return, vertical
tab and form feed. -/
def isWs (c : Char) : Bool :=
  c = ' ' || c = '\t' || c = '\n' || c = '\r' || c = '\x0b' || c = '\x0c'

/-- Python's `\w` word class (ASCII): letters, digits, underscore. -/
def isWord (c : Char) : Bool :=
  ('a' ≤ c && c ≤ 'z') || ('A' ≤ c && c ≤ 'Z') || ('0' ≤ c && c ≤ '9') || c = '_'

/-- One pass of `re.sub(r"\s+", " ", ·)`: every maximal run of whitespace
becomes a single space.  The boolean records whether the previous character
belonged to a whitespace run. -/
def collapseAux : Bool → List Char → List Char
  | _, [] => []
  | prevWs, c :: t =>
    if isWs c then
      if prevWs then collapseAux true t else ' ' :: collapseAux true t
    else
      c :: collapseAux false t

/-- Python `re.sub(r"\s+", " ", s)`. -/
def collapseWs (l : List Char) : List Char := collapseAux false l

/-- Remove a maximal run of characters satisfying `p` from the end of the
list (the right half of Python's `str.strip`). -/
def dropTrailP (p : Char → Bool) : List Char → List Char
  | [] => []
  | c :: t =>
    match dropTrailP p t with
    | [] => if p c then [] else [c]
    | x => c :: x

/-- Python `str.strip()` (no arguments): strip whitespace on both sides. -/
def stripWs (l : List Char) : List Char := dropTrailP isWs (l.dropWhile isWs)

/-- Model of `s.str.replace(r"\s+", " ", regex=True).str.strip()` — the generic
string normalisation applied to every object column by
`_normalize_strings`. -/
def squashL (l : List Char) : List Char := stripWs (collapseWs l)

/-- String-level wrapper for `squashL`. -/
def squashS (s : String) : String := ⟨squashL s.data⟩

/-- All whitespace characters of the list are plain spaces. -/
def wsSpacesOnly (l : List Char) : Bool := l.all (fun c => !isWs c || c = ' ')

/-- No two adjacent spaces. -/
def noDouble : List Char → Bool
  | [] => true
  | [_] => true
  | a :: b :: t => !(a = ' ' && b = ' ') && noDouble (b :: t)

/-- The head (if any) is not whitespace. -/
def headOk : List Char → Bool
  | [] => true
  | c :: _ => !isWs c

/-- The last character (if any) is not whitespace. -/
def lastOk (l : List Char) : Bool :=
  match l.getLast? with
  | none => true
  | some c => !isWs c

/-- A list is *squashed* when it could be the output of `squashL`:
whitespace is single interior spaces and the ends are non-whitespace. -/
def goodL (l : List Char) : Prop :=
  wsSpacesOnly l = true ∧ noDouble l = true ∧ headOk l = true ∧ lastOk l = true

theorem noDouble_tail {a : Char} {t : List Char} (h : noDouble (a :: t) = true) :
    noDouble t = true := by
  cases t with
  | nil => rfl
  | cons b t' =>
    simp only [noDouble, Bool.and_eq_true] at h
    exact h.2

theorem wsSpacesOnly_tail {a : Char} {t : List Char}
    (h : wsSpacesOnly (a :: t) = true) : wsSpacesOnly t = true := by
  simp only [wsSpacesOnly, List.all_cons, Bool.and_eq_true] at h
  exact h.2

theorem wsSpacesOnly_mem {l : List Char} (h : wsSpacesOnly l = true) {c : Char}
    (hc : c ∈ l) (hw : isWs c = true) : c = ' ' := by
  simp only [wsSpacesOnly, List.all_eq_true] at h
  have := h c hc
  rcases Bool.or_eq_true_iff.mp this with h' | h'
  · rw [hw] at h'; cases h'
  · exact of_decide_eq_true h'

/-- On a squashed list the collapse pass is the identity (for both values
of the run flag permitted by the head condition). -/
theorem collapseAux_id : ∀ (l : List Char), wsSpacesOnly l = true →
    noDouble l = true → ∀ prev : Bool, (prev = true → headOk l = true) →
    collapseAux prev l = l := by
  intro l
  induction l with
  | nil => intro _ _ prev _; cases prev <;> rfl
  | cons c t ih =>
    intro hws hnd prev hprev
    by_cases hc : isWs c = true
    · have hcsp : c = ' ' := wsSpacesOnly_mem hws (List.mem_cons_self _ _) hc
      have hpf : prev = false := by
        cases prev with
        | false => rfl
        | true =>
          have := hprev rfl
          simp only [headOk, hc] at this
          cases this
      subst hpf
      have hheadt : headOk t = true := by
        cases t with
        | nil => rfl
        | cons b t' =>
          by_cases hb : isWs b = true
          · have hbsp : b = ' ' := wsSpacesOnly_mem hws (by simp) hb
            rw [hcsp, hbsp] at hnd
            simp [noDouble] at hnd
          · simp [headOk, hb]
      have ht : collapseAux true t = t :=
        ih (wsSpacesOnly_tail hws) (noDouble_tail hnd) true (fun _ => hheadt)
      simp only [collapseAux, hc, if_true, ht]
      rw [hcsp]
      simp
    · have ht : collapseAux false t = t :=
        ih (wsSpacesOnly_tail hws) (noDouble_tail hnd) false (by intro h; cases h)
      cases prev <;> simp only [collapseAux, hc, Bool.false_eq_true, if_false, ht]

theorem dropWhile_eq_self_of_headOk {l : List Char} (h : headOk l = true) :
    l.dropWhile isWs = l := by
  cases l with
  | nil => rfl
  | cons c t =>
    have hc : isWs c = false := by simpa [headOk] using h
    simp [List.dropWhile_cons, hc]

theorem dropTrailP_eq_self_of_lastOk {l : List Char} (h : lastOk l = true) :
    dropTrailP isWs l = l := by
  induction l with
  | nil => rfl
  | cons c t ih =>
    cases t with
    | nil =>
      have hc : isWs c = false := by simpa [lastOk] using h
      simp [dropTrailP, hc]
    | cons b t' =>
      have hlast : lastOk (b :: t') = true := by
        simpa [lastOk, List.getLast?_cons_cons] using h
      have h2 := ih hlast
      rw [dropTrailP, h2]

theorem stripWs_eq_self {l : List Char} (h1 : headOk l = true)
    (h2 : lastOk l = true) : stripWs l = l := by
  unfold stripWs
  rw [dropWhile_eq_self_of_headOk h1, dropTrailP_eq_self_of_lastOk h2]

/-- The map `squashL` is the identity on squashed lists. -/
theorem squashL_eq_self {l : List Char} (h : goodL l) : squashL l = l := by
  obtain ⟨h1, h2, h3, h4⟩ := h
  unfold squashL collapseWs
  rw [collapseAux_id l h1 h2 false (by intro h; cases h), stripWs_eq_self h3 h4]

theorem ne_space_of_not_ws {c : Char} (h : isWs c = false) : c ≠ ' ' := by
  intro hc; rw [hc] at h; cases h

theorem wsSpacesOnly_collapseAux (l : List Char) :
    ∀ prev, wsSpacesOnly (collapseAux prev l) = true := by
  induction l with
  | nil => intro prev; rfl
  | cons c t ih =>
    intro prev
    by_cases hc : isWs c = true
    · cases prev with
      | true => simpa [collapseAux, hc] using ih true
      | false =>
        have := ih true
        simp only [collapseAux, hc, if_true, Bool.false_eq_true, if_false]
        simpa [wsSpacesOnly, List.all_cons] using this
    · have := ih false
      cases prev <;>
        · simp only [collapseAux, hc, Bool.false_eq_true, if_false]
          simpa [wsSpacesOnly, List.all_cons, hc] using this

theorem collapseAux_noDouble (l : List Char) :
    noDouble (collapseAux true l) = true ∧ headOk (collapseAux true l) = true ∧
      noDouble (collapseAux false l) = true := by
  induction l with
  | nil => exact ⟨rfl, rfl, rfl⟩
  | cons c t ih =>
    obtain ⟨ih1, ih2, ih3⟩ := ih
    by_cases hc : isWs c = true
    · refine ⟨by simpa [collapseAux, hc] using ih1,
        by simpa [collapseAux, hc] using ih2, ?_⟩
      simp only [collapseAux, hc, if_true, Bool.false_eq_true, if_false]
      cases hx : collapseAux true t with
      | nil => rfl
      | cons d xs =>
        rw [hx] at ih1 ih2
        have hd : isWs d = false := by simpa [headOk] using ih2
        have hdne : d ≠ ' ' := ne_space_of_not_ws hd
        simp [noDouble, hdne, ih1]
    · have hcne : c ≠ ' ' := ne_space_of_not_ws (by simpa using hc)
      have hnd : noDouble (c :: collapseAux false t) = true := by
        cases hx : collapseAux false t with
        | nil => rfl
        | cons d xs =>
          rw [hx] at ih3
          simp [noDouble, hcne, ih3]
      refine ⟨by simpa [collapseAux, hc] using hnd,
        by simp [collapseAux, hc, headOk], by simpa [collapseAux, hc] using hnd⟩

theorem dropTrailP_sublist (p : Char → Bool) : ∀ l : List Char,
    (dropTrailP p l).Sublist l := by
  intro l
  induction l with
  | nil => simp [dropTrailP]
  | cons c t ih =>
    rw [dropTrailP]
    cases hx : dropTrailP p t with
    | nil =>
      by_cases hc : p c = true
      · simp [hc]
      · simp only [hc, Bool.false_eq_true, if_false]
        exact List.Sublist.cons₂ c (List.nil_sublist t)
    | cons d xs =>
      rw [hx] at ih
      exact ih.cons₂ c

theorem wsSpacesOnly_of_sublist {l m : List Char} (h : m.Sublist l)
    (hl : wsSpacesOnly l = true) : wsSpacesOnly m = true := by
  simp only [wsSpacesOnly, List.all_eq_true] at hl ⊢
  intro c hc
  exact hl c (h.mem hc)

theorem noDouble_dropWhile {l : List Char} (h : noDouble l = true) :
    noDouble (l.dropWhile isWs) = true := by
  induction l with
  | nil => simpa using h
  | cons c t ih =>
    by_cases hc : isWs c = true
    · rw [List.dropWhile_cons_of_pos hc]
      exact ih (noDouble_tail h)
    · rw [List.dropWhile_cons_of_neg (by simp [hc])]
      exact h

theorem dropTrailP_head (p : Char → Bool) : ∀ (l : List Char) (d : Char)
    (xs : List Char), dropTrailP p l = d :: xs → ∃ t2, l = d :: t2 := by
  intro l d xs h
  cases l with
  | nil => cases h
  | cons c t =>
    rw [dropTrailP] at h
    cases hx : dropTrailP p t with
    | nil =>
      rw [hx] at h
      by_cases hc : p c = true
      · simp [hc] at h
      · simp only [hc, Bool.false_eq_true, if_false] at h
        cases h
        exact ⟨t, rfl⟩
    | cons e ys =>
      rw [hx] at h
      cases h
      exact ⟨t, rfl⟩

theorem noDouble_dropTrailP {l : List Char} (h : noDouble l = true) :
    noDouble (dropTrailP isWs l) = true := by
  induction l with
  | nil => simpa using h
  | cons c t ih =>
    rw [dropTrailP]
    cases hx : dropTrailP isWs t with
    | nil =>
      by_cases hc : isWs c = true <;> simp [hc, noDouble]
    | cons d xs =>
      have ht := ih (noDouble_tail h)
      rw [hx] at ht
      obtain ⟨t2, ht2⟩ := dropTrailP_head isWs t d xs hx
      subst ht2
      simp only [noDouble, Bool.and_eq_true] at h ⊢
      exact ⟨h.1, ht⟩

theorem headOk_dropWhile (l : List Char) : headOk (l.dropWhile isWs) = true := by
  induction l with
  | nil => rfl
  | cons c t ih =>
    by_cases hc : isWs c = true
    · rw [List.dropWhile_cons_of_pos hc]; exact ih
    · rw [List.dropWhile_cons_of_neg (by simp [hc])]
      simp [headOk, hc]

theorem headOk_dropTrailP {l : List Char} (h : headOk l = true) :
    headOk (dropTrailP isWs l) = true := by
  cases hx : dropTrailP isWs l with
  | nil => rfl
  | cons d xs =>
    obtain ⟨t2, ht2⟩ := dropTrailP_head isWs l d xs hx
    subst ht2
    exact h

theorem lastOk_dropTrailP (l : List Char) : lastOk (dropTrailP isWs l) = true := by
  induction l with
  | nil => rfl
  | cons c t ih =>
    rw [dropTrailP]
    cases hx : dropTrailP isWs t with
    | nil =>
      by_cases hc : isWs c = true
      · simp [hc, lastOk]
      · simp [hc, lastOk]
    | cons d xs =>
      rw [hx] at ih
      simpa [lastOk, List.getLast?_cons_cons] using ih

/-- The output of the generic string normalisation is squashed. -/
theorem goodL_squashL (l : List Char) : goodL (squashL l) := by
  obtain ⟨h1, h2, h3⟩ := collapseAux_noDouble l
  have hws := wsSpacesOnly_collapseAux l false
  refine ⟨?_, ?_, ?_, ?_⟩
  · exact wsSpacesOnly_of_sublist
      ((dropTrailP_sublist isWs _).trans (List.dropWhile_sublist _)) hws
  · exact noDouble_dropTrailP (noDouble_dropWhile h3)
  · exact headOk_dropTrailP (headOk_dropWhile _)
  · exact lastOk_dropTrailP _

/-- Idempotence of whitespace collapsing plus stripping. -/
theorem squashL_idem (l : List Char) : squashL (squashL l) = squashL l :=
  squashL_eq_self (goodL_squashL l)

theorem squashS_idem (s : String) : squashS (squashS s) = squashS s := by
  unfold squashS
  simp [squashL_idem]

/-- Python's `str.lower()` on the ASCII range, as used for `tags` and
`difficulty`; `Char.toLower` is exactly the ASCII case mapping. -/
def lowerL (l : List Char) : List Char := l.map Char.toLower

theorem char_toNat_ofNat (n : Nat) (h : n.isValidChar) :
    (Char.ofNat n).toNat = n := by
  unfold Char.ofNat
  simp [h]
  unfold Char.ofNatAux Char.toNat
  rfl

theorem char_ne_of_toNat_ne {c d : Char} (h : c.toNat ≠ d.toNat) : c ≠ d := by
  intro he; exact h (by rw [he])

theorem toLower_toNat_of_upper {c : Char} (h : c.toNat ≥ 65 ∧ c.toNat ≤ 90) :
    (Char.toLower c).toNat = c.toNat + 32 := by
  unfold Char.toLower
  rw [if_pos h]
  exact char_toNat_ofNat _ (by left; omega)

theorem toLower_of_not_upper {c : Char} (h : ¬(c.toNat ≥ 65 ∧ c.toNat ≤ 90)) :
    Char.toLower c = c := by
  unfold Char.toLower
  rw [if_neg h]

theorem toLower_idem (c : Char) :
    Char.toLower (Char.toLower c) = Char.toLower c := by
  by_cases h : c.toNat ≥ 65 ∧ c.toNat ≤ 90
  · have h1 := toLower_toNat_of_upper h
    exact toLower_of_not_upper (by omega)
  · simp [toLower_of_not_upper h]

theorem isWs_false_of_gt32 {c : Char} (h : 32 < c.toNat) : isWs c = false := by
  simp only [isWs, Bool.or_eq_false_iff, decide_eq_false_iff_not]
  refine ⟨⟨⟨⟨⟨?_, ?_⟩, ?_⟩, ?_⟩, ?_⟩, ?_⟩
  · exact char_ne_of_toNat_ne (by rw [show (' ' : Char).toNat = 32 from rfl]; omega)
  · exact char_ne_of_toNat_ne (by rw [show ('\t' : Char).toNat = 9 from rfl]; omega)
  · exact char_ne_of_toNat_ne (by rw [show ('\n' : Char).toNat = 10 from rfl]; omega)
  · exact char_ne_of_toNat_ne (by rw [show ('\r' : Char).toNat = 13 from rfl]; omega)
  · exact char_ne_of_toNat_ne
      (by rw [show ('\x0b' : Char).toNat = 11 from rfl]; omega)
  · exact char_ne_of_toNat_ne
      (by rw [show ('\x0c' : Char).toNat = 12 from rfl]; omega)

theorem isWs_toLower (c : Char) : isWs (Char.toLower c) = isWs c := by
  by_cases h : c.toNat ≥ 65 ∧ c.toNat ≤ 90
  · have h1 := toLower_toNat_of_upper h
    rw [isWs_false_of_gt32 (by omega), isWs_false_of_gt32 (by omega)]
  · rw [toLower_of_not_upper h]

theorem toLower_eq_space_iff (c : Char) : Char.toLower c = ' ' ↔ c = ' ' := by
  constructor
  · intro he
    by_cases h : c.toNat ≥ 65 ∧ c.toNat ≤ 90
    · have h1 := toLower_toNat_of_upper h
      rw [he, show (' ' : Char).toNat = 32 from rfl] at h1
      omega
    · rwa [toLower_of_not_upper h] at he
  · intro he; subst he; rfl

theorem toLower_eq_comma_iff (c : Char) : Char.toLower c = ',' ↔ c = ',' := by
  constructor
  · intro he
    by_cases h : c.toNat ≥ 65 ∧ c.toNat ≤ 90
    · have h1 := toLower_toNat_of_upper h
      rw [he, show (',' : Char).toNat = 44 from rfl] at h1
      omega
    · rwa [toLower_of_not_upper h] at he
  · intro he; subst he; rfl

theorem toLower_ne_upperN (c : Char) : Char.toLower c ≠ 'N' := by
  by_cases h : c.toNat ≥ 65 ∧ c.toNat ≤ 90
  · have h1 := toLower_toNat_of_upper h
    exact char_ne_of_toNat_ne
      (by rw [h1, show ('N' : Char).toNat = 78 from rfl]; omega)
  · rw [toLower_of_not_upper h]
    intro he
    subst he
    exact h (by constructor <;> decide)

theorem lowerL_idem (l : List Char) : lowerL (lowerL l) = lowerL l := by
  unfold lowerL
  rw [List.map_map]
  exact List.map_congr_left (fun c _ => toLower_idem c)

/-!
### The tags-specific normalisation

`_normalize_strings` post-processes the `tags` column with
`.str.replace(r"\s*,\s*", ",", regex=True).str.strip(", ").str.lower()`.
`rcwAux` models the regex replacement: scanning left to right, a maximal
whitespace run followed by a comma, or a comma followed by a whitespace
run, is replaced by the bare comma (greedy `\s*,\s*` matching).  The
`Nat` argument is recursion fuel; the wrapper supplies more fuel than the
list length, which is always sufficient since every step consumes at
least one character.
-/

def rcwAux : Nat → List Char → List Char
  | 0, l => l
  | _ + 1, [] => []
  | n + 1, c :: t =>
    if c = ',' then ',' :: rcwAux n (t.dropWhile isWs)
    else if isWs c then
      if ((c :: t).dropWhile isWs).head? = some ',' then
        ',' :: rcwAux n (((c :: t).dropWhile isWs).tail.dropWhile isWs)
      else (c :: t).takeWhile isWs ++ rcwAux n ((c :: t).dropWhile isWs)
    else c :: rcwAux n t

/-- Python `re.sub(r"\s*,\s*", ",", ·)`. -/
def rcwL (l : List Char) : List Char := rcwAux (l.length + 1) l

/-- Characters stripped by Python's `str.strip(", ")`. -/
def isCS (c : Char) : Bool := c = ',' || c = ' '

/-- Python `str.strip(", ")`. -/
def stripCS (l : List Char) : List Char := dropTrailP isCS (l.dropWhile isCS)

/-- No whitespace character directly adjacent to a comma (the state the
regex replacement leaves the string in). -/
def noCommaWs : List Char → Bool
  | a :: b :: t => !(isWs a && b = ',') && !(a = ',' && isWs b) && noCommaWs (b :: t)
  | _ => true

/-- The full tags transform of `_normalize_strings` (applied after the
generic whitespace collapse). -/
def tagsSpecL (l : List Char) : List Char := lowerL (stripCS (rcwL l))

theorem noCommaWs_tail {a : Char} {t : List Char}
    (h : noCommaWs (a :: t) = true) : noCommaWs t = true := by
  cases t with
  | nil => rfl
  | cons b t' =>
    simp only [noCommaWs, Bool.and_eq_true] at h
    tauto

theorem rcwAux_head (n : Nat) (d : Char) (ts : List Char) (hd : isWs d = false) :
    rcwAux n (d :: ts) = [] ∨ ∃ r, rcwAux n (d :: ts) = d :: r := by
  cases n with
  | zero => exact Or.inr ⟨ts, rfl⟩
  | succ m =>
    by_cases hc : d = ','
    · subst hc
      refine Or.inr ⟨rcwAux m (ts.dropWhile isWs), ?_⟩
      simp [rcwAux]
    · right
      refine ⟨rcwAux m ts, ?_⟩
      simp [rcwAux, hc, hd]

theorem rcwAux_sublist : ∀ (n : Nat) (l : List Char), (rcwAux n l).Sublist l := by
  intro n
  induction n with
  | zero => intro l; exact List.Sublist.refl l
  | succ m ih =>
    intro l
    cases l with
    | nil => simp [rcwAux]
    | cons c t =>
      by_cases hc : c = ','
      · subst hc
        simp only [rcwAux, if_true]
        exact ((ih _).trans (List.dropWhile_sublist _)).cons₂ ','
      · by_cases hw : isWs c = true
        · by_cases hh : ((c :: t).dropWhile isWs).head? = some ','
          · simp only [rcwAux, hc, if_false, hw, if_true, hh]
            cases hrest : (c :: t).dropWhile isWs with
            | nil => rw [hrest] at hh; cases hh
            | cons e r =>
              rw [hrest] at hh
              simp only [List.head?_cons, Option.some.injEq] at hh
              subst hh
              simp only [List.tail_cons]
              have hsub : (rcwAux m (r.dropWhile isWs)).Sublist r :=
                (ih _).trans (List.dropWhile_sublist _)
              have h3 : (',' :: r).Sublist (c :: t) := by
                rw [← List.takeWhile_append_dropWhile (p := isWs) (l := c :: t),
                  hrest]
                exact List.sublist_append_right _ _
              exact (hsub.cons₂ ',').trans h3
          · simp only [rcwAux, hc, if_false, hw, if_true, hh]
            have h2 : ((c :: t).takeWhile isWs ++
                rcwAux m ((c :: t).dropWhile isWs)).Sublist
                ((c :: t).takeWhile isWs ++ (c :: t).dropWhile isWs) :=
              List.Sublist.append_left (ih _) _
            rwa [List.takeWhile_append_dropWhile] at h2
        · simp only [rcwAux, hc, if_false, hw, Bool.false_eq_true]
          exact (ih t).cons₂ c

theorem rcwL_sublist (l : List Char) : (rcwL l).Sublist l := rcwAux_sublist _ l

theorem rcwAux_nil (n : Nat) : rcwAux n [] = [] := by cases n <;> rfl

theorem noDouble_cons_of_ne_space {a : Char} {X : List Char} (ha : a ≠ ' ')
    (h : noDouble X = true) : noDouble (a :: X) = true := by
  cases X with
  | nil => rfl
  | cons d xs => simp [noDouble, ha, h]

theorem noDouble_cons_space {X : List Char} (hh : headOk X = true)
    (h : noDouble X = true) : noDouble (' ' :: X) = true := by
  cases X with
  | nil => rfl
  | cons d xs =>
    have hd : isWs d = false := by simpa [headOk] using hh
    have : d ≠ ' ' := ne_space_of_not_ws hd
    simp [noDouble, this, h]

theorem noDouble_dropWhileP (p : Char → Bool) {l : List Char}
    (h : noDouble l = true) : noDouble (l.dropWhile p) = true := by
  induction l with
  | nil => simpa using h
  | cons c t ih =>
    by_cases hc : p c = true
    · rw [List.dropWhile_cons_of_pos hc]
      exact ih (noDouble_tail h)
    · rw [List.dropWhile_cons_of_neg (by simp [hc])]
      exact h

theorem noCommaWs_dropWhileP (p : Char → Bool) {l : List Char}
    (h : noCommaWs l = true) : noCommaWs (l.dropWhile p) = true := by
  induction l with
  | nil => simpa using h
  | cons c t ih =>
    by_cases hc : p c = true
    · rw [List.dropWhile_cons_of_pos hc]
      exact ih (noCommaWs_tail h)
    · rw [List.dropWhile_cons_of_neg (by simp [hc])]
      exact h

theorem noCommaWs_dropTrailP (p : Char → Bool) {l : List Char}
    (h : noCommaWs l = true) : noCommaWs (dropTrailP p l) = true := by
  induction l with
  | nil => simpa using h
  | cons c t ih =>
    rw [dropTrailP]
    cases hx : dropTrailP p t with
    | nil =>
      by_cases hc : p c = true <;> simp [hc, noCommaWs]
    | cons d xs =>
      have ht := ih (noCommaWs_tail h)
      rw [hx] at ht
      obtain ⟨t2, ht2⟩ := dropTrailP_head p t d xs hx
      subst ht2
      simp only [noCommaWs, Bool.and_eq_true] at h ⊢
      exact ⟨h.1, ht⟩

theorem lastOk_dropWhileP (p : Char → Bool) {l : List Char}
    (h : lastOk l = true) : lastOk (l.dropWhile p) = true := by
  induction l with
  | nil => simpa using h
  | cons c t ih =>
    by_cases hc : p c = true
    · rw [List.dropWhile_cons_of_pos hc]
      cases t with
      | nil => rfl
      | cons b t' =>
        exact ih (by simpa [lastOk, List.getLast?_cons_cons] using h)
    · rw [List.dropWhile_cons_of_neg (by simp [hc])]
      exact h

theorem lastOk_cons_of {a : Char} {X : List Char} (hne : X ≠ [])
    (h : lastOk X = true) : lastOk (a :: X) = true := by
  cases X with
  | nil => cases hne rfl
  | cons d xs => simpa [lastOk, List.getLast?_cons_cons] using h

theorem rcwAux_ne_nil : ∀ (n : Nat) (c : Char) (t : List Char),
    rcwAux n (c :: t) ≠ [] := by
  intro n c t
  cases n with
  | zero => simp [rcwAux]
  | succ m =>
    by_cases hc : c = ','
    · simp [rcwAux, hc]
    · by_cases hw : isWs c = true
      · have hdw : (c :: t).dropWhile isWs = t.dropWhile isWs :=
          List.dropWhile_cons_of_pos hw
        have htk : (c :: t).takeWhile isWs = c :: t.takeWhile isWs :=
          List.takeWhile_cons_of_pos hw
        by_cases hh : (t.dropWhile isWs).head? = some ','
        · simp [rcwAux, hc, hw, hdw, hh]
        · simp [rcwAux, hc, hw, hdw, htk, hh]
      · simp [rcwAux, hc, hw]

/-- Head of `c :: b :: t2` squashed implies `b` is not whitespace. -/
theorem second_not_ws {c b : Char} {t2 : List Char} (hw : isWs c = true)
    (hws : wsSpacesOnly (c :: b :: t2) = true)
    (hnd : noDouble (c :: b :: t2) = true) : isWs b = false := by
  by_cases hb : isWs b = true
  · have hcsp : c = ' ' := wsSpacesOnly_mem hws (by simp) hw
    have hbsp : b = ' ' := wsSpacesOnly_mem hws (by simp) hb
    rw [hcsp, hbsp] at hnd
    simp [noDouble] at hnd
  · simpa using hb

theorem rcwAux_noDouble : ∀ (n : Nat) (l : List Char),
    wsSpacesOnly l = true → noDouble l = true →
    noDouble (rcwAux n l) = true ∧
      (headOk l = true → headOk (rcwAux n l) = true) := by
  intro n
  induction n with
  | zero => intro l _ hnd; exact ⟨hnd, fun h => h⟩
  | succ m ih =>
    intro l hws hnd
    cases l with
    | nil => exact ⟨rfl, fun _ => rfl⟩
    | cons c t =>
      by_cases hc : c = ','
      · subst hc
        have hnd2 : noDouble (t.dropWhile isWs) = true :=
          noDouble_dropWhileP isWs (noDouble_tail hnd)
        have hws2 : wsSpacesOnly (t.dropWhile isWs) = true :=
          wsSpacesOnly_of_sublist (List.dropWhile_sublist _)
            (wsSpacesOnly_tail hws)
        have hX := (ih _ hws2 hnd2).1
        constructor
        · simp only [rcwAux, if_true]
          exact noDouble_cons_of_ne_space (a := ',') (by decide) hX
        · intro _
          simp only [rcwAux, if_true]
          rfl
      · by_cases hw : isWs c = true
        · have hvac : headOk (c :: t) = true → False := by
            intro h; simp [headOk, hw] at h
          cases t with
          | nil =>
            have hdrop : (c :: ([] : List Char)).dropWhile isWs = [] := by
              simp [List.dropWhile_cons_of_pos hw]
            have htake : (c :: ([] : List Char)).takeWhile isWs = [c] := by
              simp [List.takeWhile_cons_of_pos hw]
            refine ⟨?_, fun h => absurd h (by simpa using hvac)⟩
            simp [rcwAux, hc, hw, hdrop, htake, rcwAux_nil, noDouble]
          | cons b t2 =>
            have hb : isWs b = false := second_not_ws hw hws hnd
            have hdrop : (c :: b :: t2).dropWhile isWs = b :: t2 := by
              rw [List.dropWhile_cons_of_pos hw,
                List.dropWhile_cons_of_neg (by simp [hb])]
            by_cases hbc : b = ','
            · have hh : (b :: t2).head? = some ',' := by rw [hbc]; rfl
              have hnd2 : noDouble (t2.dropWhile isWs) = true :=
                noDouble_dropWhileP isWs
                  (noDouble_tail (noDouble_tail hnd))
              have hws2 : wsSpacesOnly (t2.dropWhile isWs) = true :=
                wsSpacesOnly_of_sublist (List.dropWhile_sublist _)
                  (wsSpacesOnly_tail (wsSpacesOnly_tail hws))
              have hX := (ih _ hws2 hnd2).1
              refine ⟨?_, fun h => absurd h (by simpa using hvac)⟩
              simp only [rcwAux, hc, if_false, hw, if_true, hdrop, hh,
                List.tail_cons, if_pos]
              exact noDouble_cons_of_ne_space (a := ',') (by decide) hX
            · have hh : ¬((b :: t2).head? = some ',') := by simp [hbc]
              have htake : (c :: b :: t2).takeWhile isWs = [c] := by
                rw [List.takeWhile_cons_of_pos hw,
                  List.takeWhile_cons_of_neg (by simp [hb])]
              have hws2 : wsSpacesOnly (b :: t2) = true := wsSpacesOnly_tail hws
              have hnd2 : noDouble (b :: t2) = true := noDouble_tail hnd
              obtain ⟨hX, hXhead⟩ := ih (b :: t2) hws2 hnd2
              have hcsp : c = ' ' := wsSpacesOnly_mem hws (by simp) hw
              refine ⟨?_, fun h => absurd h (by simpa using hvac)⟩
              simp only [rcwAux, hc, if_false, hw, if_true, hdrop, hh, htake,
                List.singleton_append]
              rw [hcsp]
              exact noDouble_cons_space (hXhead (by simp [headOk, hb])) hX
        · have hne : c ≠ ' ' := ne_space_of_not_ws (by simpa using hw)
          obtain ⟨hX, _⟩ := ih t (wsSpacesOnly_tail hws) (noDouble_tail hnd)
          constructor
          · simp only [rcwAux, hc, if_false, hw, Bool.false_eq_true]
            exact noDouble_cons_of_ne_space hne hX
          · intro _
            simp only [rcwAux, hc, if_false, hw, Bool.false_eq_true]
            simpa [headOk] using hw

theorem rcwAux_headOk (n : Nat) (l : List Char) (h : headOk l = true) :
    headOk (rcwAux n l) = true := by
  cases l with
  | nil => rw [rcwAux_nil]; rfl
  | cons d ts =>
    have hd : isWs d = false := by simpa [headOk] using h
    rcases rcwAux_head n d ts hd with h1 | ⟨r, h1⟩
    · rw [h1]; rfl
    · rw [h1]; simpa [headOk] using hd

theorem noCommaWs_safe_cons {c : Char} {X : List Char} (hcw : isWs c = false)
    (hcc : c ≠ ',') (hX : noCommaWs X = true) : noCommaWs (c :: X) = true := by
  cases X with
  | nil => rfl
  | cons e xs => simp [noCommaWs, hcw, hcc, hX]

theorem noCommaWs_comma_cons {X : List Char} (hX : noCommaWs X = true)
    (hhd : headOk X = true) : noCommaWs (',' :: X) = true := by
  cases X with
  | nil => rfl
  | cons e xs =>
    have he : isWs e = false := by simpa [headOk] using hhd
    have h0 : isWs ',' = false := rfl
    simp [noCommaWs, he, hX, h0]

theorem noCommaWs_space_cons {X : List Char} (hX : noCommaWs X = true)
    (hhd : X.head? ≠ some ',') : noCommaWs (' ' :: X) = true := by
  cases X with
  | nil => rfl
  | cons e xs =>
    have he : e ≠ ',' := by
      intro h; exact hhd (by rw [h]; rfl)
    simp [noCommaWs, he, hX]

theorem rcwAux_noCommaWs : ∀ (n : Nat) (l : List Char), l.length < n →
    wsSpacesOnly l = true → noDouble l = true →
    noCommaWs (rcwAux n l) = true := by
  intro n
  induction n with
  | zero => intro l hn; omega
  | succ m ih =>
    intro l hn hws hnd
    cases l with
    | nil => rw [rcwAux_nil]; rfl
    | cons c t =>
      simp only [List.length_cons] at hn
      by_cases hc : c = ','
      · subst hc
        simp only [rcwAux, if_true]
        have hlen : (t.dropWhile isWs).length < m :=
          lt_of_le_of_lt (List.dropWhile_sublist _).length_le (by omega)
        have hX := ih _ hlen
          (wsSpacesOnly_of_sublist (List.dropWhile_sublist _)
            (wsSpacesOnly_tail hws))
          (noDouble_dropWhileP isWs (noDouble_tail hnd))
        exact noCommaWs_comma_cons hX (rcwAux_headOk _ _ (headOk_dropWhile _))
      · by_cases hw : isWs c = true
        · cases t with
          | nil =>
            have hdrop : (c :: ([] : List Char)).dropWhile isWs = [] := by
              simp [List.dropWhile_cons_of_pos hw]
            have htake : (c :: ([] : List Char)).takeWhile isWs = [c] := by
              simp [List.takeWhile_cons_of_pos hw]
            simp only [rcwAux, hc, if_false, hw, if_true, hdrop, htake,
              rcwAux_nil]
            rfl
          | cons b t2 =>
            have hb : isWs b = false := second_not_ws hw hws hnd
            have hdrop : (c :: b :: t2).dropWhile isWs = b :: t2 := by
              rw [List.dropWhile_cons_of_pos hw,
                List.dropWhile_cons_of_neg (by simp [hb])]
            have hcsp : c = ' ' := wsSpacesOnly_mem hws (by simp) hw
            by_cases hbc : b = ','
            · have hh : (b :: t2).head? = some ',' := by rw [hbc]; rfl
              have hlen : (t2.dropWhile isWs).length < m :=
                lt_of_le_of_lt (List.dropWhile_sublist _).length_le
                  (by simp only [List.length_cons] at hn; omega)
              have hX := ih _ hlen
                (wsSpacesOnly_of_sublist (List.dropWhile_sublist _)
                  (wsSpacesOnly_tail (wsSpacesOnly_tail hws)))
                (noDouble_dropWhileP isWs
                  (noDouble_tail (noDouble_tail hnd)))
              simp only [rcwAux, hc, if_false, hw, if_true, hdrop, hh,
                List.tail_cons, if_pos]
              exact noCommaWs_comma_cons hX
                (rcwAux_headOk _ _ (headOk_dropWhile _))
            · have hh : ¬((b :: t2).head? = some ',') := by simp [hbc]
              have htake : (c :: b :: t2).takeWhile isWs = [c] := by
                rw [List.takeWhile_cons_of_pos hw,
                  List.takeWhile_cons_of_neg (by simp [hb])]
              have hX := ih (b :: t2)
                (by simp only [List.length_cons] at hn ⊢; omega)
                (wsSpacesOnly_tail hws) (noDouble_tail hnd)
              simp only [rcwAux, hc, if_false, hw, if_true, hdrop, hh, htake,
                List.singleton_append]
              rw [hcsp]
              apply noCommaWs_space_cons hX
              rcases rcwAux_head m b t2 hb with h1 | ⟨r, h1⟩
              · rw [h1]; simp
              · rw [h1]; simp [hbc]
        · have hX := ih t (by omega) (wsSpacesOnly_tail hws)
            (noDouble_tail hnd)
          simp only [rcwAux, hc, if_false, hw, Bool.false_eq_true]
          exact noCommaWs_safe_cons (by simpa using hw) hc hX

theorem lastOk_tail {a b : Char} {t : List Char} :
    lastOk (a :: b :: t) = lastOk (b :: t) := by
  simp [lastOk, List.getLast?_cons_cons]

theorem rcwAux_lastOk : ∀ (n : Nat) (l : List Char),
    wsSpacesOnly l = true → noDouble l = true → lastOk l = true →
    lastOk (rcwAux n l) = true := by
  intro n
  induction n with
  | zero => intro l _ _ h; exact h
  | succ m ih =>
    intro l hws hnd hlast
    cases l with
    | nil => rw [rcwAux_nil]; rfl
    | cons c t =>
      by_cases hc : c = ','
      · subst hc
        simp only [rcwAux, if_true]
        cases hrest : t.dropWhile isWs with
        | nil => rw [rcwAux_nil]; rfl
        | cons d ts =>
          have htne : t ≠ [] := by
            intro h; rw [h] at hrest; cases hrest
          have hlt : lastOk t = true := by
            cases t with
            | nil => cases htne rfl
            | cons b t2 => rw [← lastOk_tail (a := ',')]; exact hlast
          have hX := ih (d :: ts) (by
              rw [← hrest]
              exact wsSpacesOnly_of_sublist (List.dropWhile_sublist _)
                (wsSpacesOnly_tail hws))
            (by rw [← hrest]
                exact noDouble_dropWhileP isWs (noDouble_tail hnd))
            (by rw [← hrest]; exact lastOk_dropWhileP isWs hlt)
          exact lastOk_cons_of (rcwAux_ne_nil m d ts) hX
      · by_cases hw : isWs c = true
        · cases t with
          | nil =>
            exfalso
            have : lastOk [c] = false := by simp [lastOk, hw]
            rw [hlast] at this; cases this
          | cons b t2 =>
            have hb : isWs b = false := second_not_ws hw hws hnd
            have hdrop : (c :: b :: t2).dropWhile isWs = b :: t2 := by
              rw [List.dropWhile_cons_of_pos hw,
                List.dropWhile_cons_of_neg (by simp [hb])]
            have hlbt : lastOk (b :: t2) = true := by
              rw [← lastOk_tail (a := c)]; exact hlast
            by_cases hbc : b = ','
            · have hh : (b :: t2).head? = some ',' := by rw [hbc]; rfl
              simp only [rcwAux, hc, if_false, hw, if_true, hdrop, hh,
                List.tail_cons, if_pos]
              cases hrest : t2.dropWhile isWs with
              | nil => rw [rcwAux_nil]; rfl
              | cons d ts =>
                have ht2ne : t2 ≠ [] := by
                  intro h; rw [h] at hrest; cases hrest
                have hlt2 : lastOk t2 = true := by
                  cases t2 with
                  | nil => cases ht2ne rfl
                  | cons e t3 => rw [← lastOk_tail (a := b)]; exact hlbt
                have hX := ih (d :: ts) (by
                    rw [← hrest]
                    exact wsSpacesOnly_of_sublist (List.dropWhile_sublist _)
                      (wsSpacesOnly_tail (wsSpacesOnly_tail hws)))
                  (by rw [← hrest]
                      exact noDouble_dropWhileP isWs
                        (noDouble_tail (noDouble_tail hnd)))
                  (by rw [← hrest]; exact lastOk_dropWhileP isWs hlt2)
                exact lastOk_cons_of (rcwAux_ne_nil m d ts) hX
            · have hh : ¬((b :: t2).head? = some ',') := by simp [hbc]
              have htake : (c :: b :: t2).takeWhile isWs = [c] := by
                rw [List.takeWhile_cons_of_pos hw,
                  List.takeWhile_cons_of_neg (by simp [hb])]
              have hX := ih (b :: t2) (wsSpacesOnly_tail hws)
                (noDouble_tail hnd) hlbt
              simp only [rcwAux, hc, if_false, hw, if_true, hdrop, hh, htake,
                List.singleton_append]
              exact lastOk_cons_of (rcwAux_ne_nil m b t2) hX
        · cases t with
          | nil =>
            simp only [rcwAux, hc, if_false, hw, Bool.false_eq_true,
              rcwAux_nil]
            exact hlast
          | cons b t2 =>
            have hX := ih (b :: t2) (wsSpacesOnly_tail hws)
              (noDouble_tail hnd) (by rw [← lastOk_tail (a := c)]; exact hlast)
            simp only [rcwAux, hc, if_false, hw, Bool.false_eq_true]
            exact lastOk_cons_of (rcwAux_ne_nil m b t2) hX

theorem ncw_drop_head : ∀ (t : List Char) (c : Char), isWs c = true →
    noCommaWs (c :: t) = true → (t.dropWhile isWs).head? ≠ some ',' := by
  intro t
  induction t with
  | nil => intro c _ _ h; cases h
  | cons b t2 ih =>
    intro c hc hncw
    by_cases hb : isWs b = true
    · rw [List.dropWhile_cons_of_pos hb]
      exact ih b hb (noCommaWs_tail hncw)
    · rw [List.dropWhile_cons_of_neg (by simp [hb])]
      simp only [noCommaWs, Bool.and_eq_true] at hncw
      have h1 := hncw.1.1
      rw [hc] at h1
      simp only [Bool.true_and, Bool.not_eq_true', decide_eq_false_iff_not] at h1
      simp [h1]

theorem rcwAux_id : ∀ (n : Nat) (l : List Char), noCommaWs l = true →
    rcwAux n l = l := by
  intro n
  induction n with
  | zero => intro l _; rfl
  | succ m ih =>
    intro l hncw
    cases l with
    | nil => rfl
    | cons c t =>
      by_cases hc : c = ','
      · subst hc
        simp only [rcwAux, if_true]
        cases t with
        | nil => rw [List.dropWhile_nil, rcwAux_nil]
        | cons b t2 =>
          simp only [noCommaWs, Bool.and_eq_true] at hncw
          have hb : isWs b = false := by
            have := hncw.1.2
            simpa using this
          rw [List.dropWhile_cons_of_neg (by simp [hb])]
          rw [ih (b :: t2) hncw.2]
      · by_cases hw : isWs c = true
        · have hh := ncw_drop_head t c hw hncw
          have hdc : (c :: t).dropWhile isWs = t.dropWhile isWs :=
            List.dropWhile_cons_of_pos hw
          simp only [rcwAux, hc, if_false, hw, if_true, hdc, hh]
          rw [ih (t.dropWhile isWs)
            (noCommaWs_dropWhileP isWs (noCommaWs_tail hncw))]
          rw [← hdc, List.takeWhile_append_dropWhile]
        · simp only [rcwAux, hc, if_false, hw, Bool.false_eq_true]
          rw [ih t (noCommaWs_tail hncw)]

/-!
### Assembling the tags transform and its idempotence
-/

def headNotP (p : Char → Bool) : List Char → Bool
  | [] => true
  | c :: _ => !p c

def lastNotP (p : Char → Bool) (l : List Char) : Bool :=
  match l.getLast? with
  | none => true
  | some c => !p c

theorem mem_of_getLast?_eq {l : List Char} {c : Char}
    (h : l.getLast? = some c) : c ∈ l := by
  have hx : c ∈ l.getLast? := h
  obtain ⟨hne, heq⟩ := List.mem_getLast?_eq_getLast hx
  rw [heq]
  exact List.getLast_mem hne

theorem headNotP_dropWhile (p : Char → Bool) (l : List Char) :
    headNotP p (l.dropWhile p) = true := by
  induction l with
  | nil => rfl
  | cons c t ih =>
    by_cases hc : p c = true
    · rw [List.dropWhile_cons_of_pos hc]; exact ih
    · rw [List.dropWhile_cons_of_neg (by simp [hc])]
      simpa [headNotP] using hc

theorem lastNotP_dropTrailP (p : Char → Bool) (l : List Char) :
    lastNotP p (dropTrailP p l) = true := by
  induction l with
  | nil => rfl
  | cons c t ih =>
    rw [dropTrailP]
    cases hx : dropTrailP p t with
    | nil =>
      by_cases hc : p c = true
      · simp [hc, lastNotP]
      · simp [hc, lastNotP]
    | cons d xs =>
      rw [hx] at ih
      simpa [lastNotP, List.getLast?_cons_cons] using ih

theorem dropWhileP_eq_self (p : Char → Bool) {l : List Char}
    (h : headNotP p l = true) : l.dropWhile p = l := by
  cases l with
  | nil => rfl
  | cons c t =>
    have hc : p c = false := by simpa [headNotP] using h
    simp [List.dropWhile_cons, hc]

theorem dropTrailP_eq_self (p : Char → Bool) {l : List Char}
    (h : lastNotP p l = true) : dropTrailP p l = l := by
  induction l with
  | nil => rfl
  | cons c t ih =>
    cases t with
    | nil =>
      have hc : p c = false := by simpa [lastNotP] using h
      simp [dropTrailP, hc]
    | cons b t' =>
      have hlast : lastNotP p (b :: t') = true := by
        simpa [lastNotP, List.getLast?_cons_cons] using h
      rw [dropTrailP, ih hlast]

theorem headNotP_dropTrailP (p q : Char → Bool) {l : List Char}
    (h : headNotP p l = true) : headNotP p (dropTrailP q l) = true := by
  cases hx : dropTrailP q l with
  | nil => rfl
  | cons d xs =>
    obtain ⟨t2, ht2⟩ := dropTrailP_head q l d xs hx
    subst ht2
    exact h

theorem headOk_dropTrailP_any (p : Char → Bool) {l : List Char}
    (h : headOk l = true) : headOk (dropTrailP p l) = true := by
  cases hx : dropTrailP p l with
  | nil => rfl
  | cons d xs =>
    obtain ⟨t2, ht2⟩ := dropTrailP_head p l d xs hx
    subst ht2
    exact h

theorem lastOk_of_wsOnly_lastNotCS {l : List Char}
    (hws : wsSpacesOnly l = true) (h : lastNotP isCS l = true) :
    lastOk l = true := by
  unfold lastOk
  cases hx : l.getLast? with
  | none => rfl
  | some c =>
    unfold lastNotP at h
    rw [hx] at h
    simp only [Bool.not_eq_true'] at h
    by_cases hw : isWs c = true
    · have := wsSpacesOnly_mem hws (mem_of_getLast?_eq hx) hw
      rw [this] at h
      simp [isCS] at h
    · simpa using hw

theorem headOk_of_wsOnly_headNotCS {l : List Char}
    (hws : wsSpacesOnly l = true) (h : headNotP isCS l = true) :
    headOk l = true := by
  cases l with
  | nil => rfl
  | cons c t =>
    simp only [headNotP, Bool.not_eq_true'] at h
    by_cases hw : isWs c = true
    · have := wsSpacesOnly_mem hws (by simp) hw
      rw [this] at h
      simp [isCS] at h
    · simpa [headOk] using hw

theorem isCS_toLower (c : Char) : isCS (Char.toLower c) = isCS c := by
  unfold isCS
  rcases h1 : decide (Char.toLower c = ',') with _ | _ <;>
  rcases h2 : decide (Char.toLower c = ' ') with _ | _ <;>
    simp only [decide_eq_true_eq, decide_eq_false_iff_not] at h1 h2 <;>
    · rw [toLower_eq_comma_iff] at h1
      rw [toLower_eq_space_iff] at h2
      simp [h1, h2]

/-! Preservation of the squashed-string structure by `lowerL`. -/

theorem wsSpacesOnly_lowerL {l : List Char} (h : wsSpacesOnly l = true) :
    wsSpacesOnly (lowerL l) = true := by
  unfold wsSpacesOnly at h ⊢
  unfold lowerL
  rw [List.all_map]
  simp only [List.all_eq_true] at h ⊢
  intro c hc
  have := h c hc
  simp only [Function.comp_apply, isWs_toLower]
  rcases Bool.or_eq_true_iff.mp this with h' | h'
  · simp [h']
  · have : c = ' ' := of_decide_eq_true h'
    subst this
    simp

theorem toLower_space_pair (a b : Char) :
    (Char.toLower a = ' ' ∧ Char.toLower b = ' ') ↔ (a = ' ' ∧ b = ' ') := by
  rw [toLower_eq_space_iff, toLower_eq_space_iff]

theorem noDouble_lowerL {l : List Char} (h : noDouble l = true) :
    noDouble (lowerL l) = true := by
  induction l with
  | nil => rfl
  | cons a t ih =>
    cases t with
    | nil => rfl
    | cons b t2 =>
      simp only [noDouble, Bool.and_eq_true, Bool.not_eq_true',
        Bool.and_eq_false_iff] at h
      have ht := ih h.2
      show noDouble (Char.toLower a :: Char.toLower b :: lowerL t2) = true
      simp only [noDouble, Bool.and_eq_true, Bool.not_eq_true',
        Bool.and_eq_false_iff]
      refine ⟨?_, ht⟩
      rcases h.1 with h' | h'
      · left; simpa [toLower_eq_space_iff] using h'
      · right; simpa [toLower_eq_space_iff] using h'

theorem headOk_lowerL {l : List Char} (h : headOk l = true) :
    headOk (lowerL l) = true := by
  cases l with
  | nil => rfl
  | cons c t =>
    show headOk (Char.toLower c :: lowerL t) = true
    simp only [headOk, isWs_toLower]
    exact h

theorem lastOk_lowerL {l : List Char} (h : lastOk l = true) :
    lastOk (lowerL l) = true := by
  unfold lastOk at h ⊢
  unfold lowerL
  rw [List.getLast?_map]
  cases hx : l.getLast? with
  | none => rfl
  | some c =>
    rw [hx] at h
    simpa [Option.map_some, isWs_toLower] using h

theorem noCommaWs_lowerL {l : List Char} (h : noCommaWs l = true) :
    noCommaWs (lowerL l) = true := by
  induction l with
  | nil => rfl
  | cons a t ih =>
    cases t with
    | nil => rfl
    | cons b t2 =>
      simp only [noCommaWs, Bool.and_eq_true] at h
      have ht := ih h.2
      show noCommaWs (Char.toLower a :: Char.toLower b :: lowerL t2) = true
      simp only [noCommaWs, Bool.and_eq_true]
      refine ⟨⟨?_, ?_⟩, ht⟩
      · have h1 := h.1.1
        simp only [Bool.not_eq_true', Bool.and_eq_false_iff] at h1 ⊢
        rcases h1 with h' | h'
        · left; rw [isWs_toLower]; exact h'
        · right
          simp only [decide_eq_false_iff_not] at h' ⊢
          simpa [toLower_eq_comma_iff] using h'
      · have h1 := h.1.2
        simp only [Bool.not_eq_true', Bool.and_eq_false_iff] at h1 ⊢
        rcases h1 with h' | h'
        · left
          simp only [decide_eq_false_iff_not] at h' ⊢
          simpa [toLower_eq_comma_iff] using h'
        · right; rw [isWs_toLower]; exact h'

theorem headNotP_CS_lowerL {l : List Char} (h : headNotP isCS l = true) :
    headNotP isCS (lowerL l) = true := by
  cases l with
  | nil => rfl
  | cons c t =>
    show headNotP isCS (Char.toLower c :: lowerL t) = true
    simp only [headNotP, isCS_toLower]
    exact h

theorem lastNotP_CS_lowerL {l : List Char} (h : lastNotP isCS l = true) :
    lastNotP isCS (lowerL l) = true := by
  unfold lastNotP at h ⊢
  unfold lowerL
  rw [List.getLast?_map]
  cases hx : l.getLast? with
  | none => rfl
  | some c =>
    rw [hx] at h
    simpa [Option.map_some, isCS_toLower] using h

theorem noDouble_dropTrailP_any (p : Char → Bool) {l : List Char}
    (h : noDouble l = true) : noDouble (dropTrailP p l) = true := by
  induction l with
  | nil => simpa using h
  | cons c t ih =>
    rw [dropTrailP]
    cases hx : dropTrailP p t with
    | nil =>
      by_cases hc : p c = true <;> simp [hc, noDouble]
    | cons d xs =>
      have ht := ih (noDouble_tail h)
      rw [hx] at ht
      obtain ⟨t2, ht2⟩ := dropTrailP_head p t d xs hx
      subst ht2
      simp only [noDouble, Bool.and_eq_true] at h ⊢
      exact ⟨h.1, ht⟩

/-- Model of `df[c] = s.where(s.ne("None"), "")` on a single cell: the literal
string `"None"` becomes empty. -/
def noneRemoveS (s : String) : String := if s = "None" then "" else s

/-- The generic per-cell normalisation of `_normalize_strings`: collapse
whitespace runs, strip, replace a literal `"None"` by the empty string. -/
def normTextS (s : String) : String := noneRemoveS (squashS s)

/-- String wrapper for the tags-specific transform. -/
def tagsSpecS (s : String) : String := ⟨tagsSpecL s.data⟩

/-- String wrapper for `str.lower()` (`difficulty` column). -/
def lowerS (s : String) : String := ⟨lowerL s.data⟩

theorem goodL_nil : goodL ([] : List Char) := ⟨rfl, rfl, rfl, rfl⟩

theorem goodL_normTextS (s : String) : goodL (normTextS s).data := by
  unfold normTextS noneRemoveS
  by_cases h : squashS s = "None"
  · rw [if_pos h]
    exact goodL_nil
  · rw [if_neg h]
    exact goodL_squashL s.data

theorem squashS_eq_self {s : String} (h : goodL s.data) : squashS s = s := by
  unfold squashS
  rw [squashL_eq_self h]

theorem normTextS_eq_self {s : String} (hg : goodL s.data)
    (hne : s ≠ "None") : normTextS s = s := by
  unfold normTextS noneRemoveS
  rw [squashS_eq_self hg, if_neg hne]

theorem normTextS_idem (s : String) : normTextS (normTextS s) = normTextS s := by
  by_cases h : squashS s = "None"
  · have h1 : normTextS s = "" := by unfold normTextS noneRemoveS; rw [if_pos h]
    rw [h1]
    rfl
  · have h1 : normTextS s = squashS s := by
      unfold normTextS noneRemoveS; rw [if_neg h]
    rw [h1]
    exact normTextS_eq_self (goodL_squashL s.data) h

theorem mk_lowerL_ne_None (z : List Char) : (⟨lowerL z⟩ : String) ≠ "None" := by
  intro h
  have hd : lowerL z = ['N', 'o', 'n', 'e'] := congrArg String.data h
  cases z with
  | nil => cases hd
  | cons c z2 =>
    have : Char.toLower c = 'N' := by
      have := congrArg (·.head?) hd
      simpa [lowerL] using this
    exact toLower_ne_upperN c this

theorem goodL_lowerL {l : List Char} (h : goodL l) : goodL (lowerL l) :=
  ⟨wsSpacesOnly_lowerL h.1, noDouble_lowerL h.2.1, headOk_lowerL h.2.2.1,
    lastOk_lowerL h.2.2.2⟩

/-- The `difficulty` pipeline (generic normalise then lowercase) is
idempotent. -/
theorem difficultyS_idem (s : String) :
    lowerS (normTextS (lowerS (normTextS s))) = lowerS (normTextS s) := by
  have hg : goodL (lowerS (normTextS s)).data :=
    goodL_lowerL (goodL_normTextS s)
  have hne : lowerS (normTextS s) ≠ "None" := mk_lowerL_ne_None _
  rw [normTextS_eq_self hg hne]
  show (⟨lowerL (lowerL (normTextS s).data)⟩ : String) = ⟨lowerL (normTextS s).data⟩
  rw [lowerL_idem]

/-- Structural properties of the tags transform output. -/
theorem tagsSpecL_props {l : List Char} (hg : goodL l) :
    goodL (tagsSpecL l) ∧ noCommaWs (tagsSpecL l) = true ∧
      headNotP isCS (tagsSpecL l) = true ∧
      lastNotP isCS (tagsSpecL l) = true := by
  obtain ⟨h1, h2, h3, h4⟩ := hg
  have r1 : wsSpacesOnly (rcwL l) = true :=
    wsSpacesOnly_of_sublist (rcwL_sublist l) h1
  have r2 : noDouble (rcwL l) = true := (rcwAux_noDouble _ l h1 h2).1
  have r3 : headOk (rcwL l) = true := rcwAux_headOk _ l h3
  have r4 : lastOk (rcwL l) = true := rcwAux_lastOk _ l h1 h2 h4
  have r5 : noCommaWs (rcwL l) = true :=
    rcwAux_noCommaWs _ l (Nat.lt_succ_self _) h1 h2
  have s1 : wsSpacesOnly (stripCS (rcwL l)) = true :=
    wsSpacesOnly_of_sublist
      ((dropTrailP_sublist isCS _).trans (List.dropWhile_sublist _)) r1
  have s2 : noDouble (stripCS (rcwL l)) = true :=
    noDouble_dropTrailP_any isCS (noDouble_dropWhileP isCS r2)
  have s5 : noCommaWs (stripCS (rcwL l)) = true :=
    noCommaWs_dropTrailP isCS (noCommaWs_dropWhileP isCS r5)
  have sh : headNotP isCS (stripCS (rcwL l)) = true :=
    headNotP_dropTrailP isCS isCS (headNotP_dropWhile isCS _)
  have sl : lastNotP isCS (stripCS (rcwL l)) = true :=
    lastNotP_dropTrailP isCS _
  have s3 : headOk (stripCS (rcwL l)) = true :=
    headOk_of_wsOnly_headNotCS s1 sh
  have s4 : lastOk (stripCS (rcwL l)) = true :=
    lastOk_of_wsOnly_lastNotCS s1 sl
  refine ⟨⟨wsSpacesOnly_lowerL s1, noDouble_lowerL s2, headOk_lowerL s3,
    lastOk_lowerL s4⟩, noCommaWs_lowerL s5, headNotP_CS_lowerL sh,
    lastNotP_CS_lowerL sl⟩

/-- The tags transform is the identity on its own (normalised) output. -/
theorem tagsSpecL_id {l : List Char} (hncw : noCommaWs l = true)
    (hh : headNotP isCS l = true) (hl : lastNotP isCS l = true)
    (hlow : ∃ z, l = lowerL z) : tagsSpecL l = l := by
  obtain ⟨z, hz⟩ := hlow
  unfold tagsSpecL
  rw [show rcwL l = l from rcwAux_id _ l hncw]
  unfold stripCS
  rw [dropWhileP_eq_self isCS hh, dropTrailP_eq_self isCS hl, hz, lowerL_idem]

/-- The `tags` pipeline (generic normalise then comma/strip/lowercase) is
idempotent. -/
theorem tagsS_idem (s : String) :
    tagsSpecS (normTextS (tagsSpecS (normTextS s))) =
      tagsSpecS (normTextS s) := by
  obtain ⟨hg, hncw, hh, hl⟩ := tagsSpecL_props (goodL_normTextS s)
  have hne : tagsSpecS (normTextS s) ≠ "None" := by
    show (⟨tagsSpecL (normTextS s).data⟩ : String) ≠ "None"
    unfold tagsSpecL
    exact mk_lowerL_ne_None _
  have h0 : normTextS (tagsSpecS (normTextS s)) = tagsSpecS (normTextS s) :=
    normTextS_eq_self (s := tagsSpecS (normTextS s)) hg hne
  rw [h0]
  show (⟨tagsSpecL (tagsSpecL (normTextS s).data)⟩ : String) = _
  rw [tagsSpecL_id hncw hh hl ⟨_, rfl⟩]
  rfl

/-!
### The unified record and the Local Cleaner (`validate_clean.py`)

`UNIFIED_CODE_COLUMNS` fixes nine textual columns.  A `Row` is one record
of that schema; all pandas column operations become per-row functions
mapped over a `List Row`.
-/

structure Row where
  source : String
  dataset_id : String
  title : String
  prompt : String
  solution : String
  language : String
  difficulty : String
  tags : String
  split : String
deriving DecidableEq

/-- The per-row effect of `_normalize_strings`: every object column gets
the generic whitespace collapse / strip / `"None"` removal; afterwards
`tags` additionally gets `\s*,\s*` → `","`, `strip(", ")` and lowercase,
and `difficulty` gets lowercase. -/
def normRow (r : Row) : Row where
  source := normTextS r.source
  dataset_id := normTextS r.dataset_id
  title := normTextS r.title
  prompt := normTextS r.prompt
  solution := normTextS r.solution
  language := normTextS r.language
  difficulty := lowerS (normTextS r.difficulty)
  tags := tagsSpecS (normTextS r.tags)
  split := normTextS r.split

/-- Model of `_normalize_strings` on a whole table. -/
def normalizeStrings (df : List Row) : List Row := df.map normRow

/-- Model of `_drop_empties`: keep rows with non-empty `prompt`; when
`require_solution` is set, additionally require non-empty `solution`. -/
def dropEmpties (require_solution : Bool) (df : List Row) : List Row :=
  df.filter fun r =>
    decide (0 < r.prompt.length) &&
      (!require_solution || decide (0 < r.solution.length))

/-- The byte string hashed by `_row_key` in `_dedupe`: `hashlib.sha256`
updated successively with the utf-8 bytes of `source`, `title`, `prompt`
— i.e. their concatenation with **no** delimiter.  The sha-256 digest is
modelled by its input; equal inputs give equal digests, and distinct
inputs give distinct digests up to negligible collisions. -/
def rowKeyLocal (r : Row) : String := r.source ++ r.title ++ r.prompt

/-- Model of the `keys.duplicated()` based dedup: keep the first occurrence of each
key, scanning in file order.  `seen` is the set of keys already kept. -/
def dedupeAux (key : Row → String) (seen : List String) :
    List Row → List Row
  | [] => []
  | r :: t =>
    if key r ∈ seen then dedupeAux key seen t
    else r :: dedupeAux key (key r :: seen) t

/-- Model of `_dedupe`: the kept rows plus the number of removed rows. -/
def dedupe (df : List Row) : List Row × Nat :=
  (dedupeAux rowKeyLocal [] df, df.length - (dedupeAux rowKeyLocal [] df).length)

/-- The in-memory transform of `clean_one` (after `_read_parquet`):
normalise strings, drop empty required fields, deduplicate. -/
def localClean (require_solution : Bool) (df : List Row) : List Row :=
  (dedupe (dropEmpties require_solution (normalizeStrings df))).1

theorem normRow_idem (r : Row) : normRow (normRow r) = normRow r := by
  simp [normRow, normTextS_idem, difficultyS_idem, tagsS_idem]

theorem dedupeAux_sublist (key : Row → String) :
    ∀ (seen : List String) (df : List Row),
      (dedupeAux key seen df).Sublist df := by
  intro seen df
  induction df generalizing seen with
  | nil => exact List.Sublist.refl _
  | cons r t ih =>
    rw [dedupeAux]
    by_cases h : key r ∈ seen
    · rw [if_pos h]
      exact (ih seen).trans (List.sublist_cons_self r t)
    · rw [if_neg h]
      exact (ih _).cons₂ r

theorem dedupeAux_keys (key : Row → String) :
    ∀ (seen : List String) (df : List Row),
      ((dedupeAux key seen df).map key).Nodup ∧
        ∀ k ∈ (dedupeAux key seen df).map key, k ∉ seen := by
  intro seen df
  induction df generalizing seen with
  | nil => exact ⟨List.nodup_nil, by simp [dedupeAux]⟩
  | cons r t ih =>
    rw [dedupeAux]
    by_cases h : key r ∈ seen
    · rw [if_pos h]
      exact ih seen
    · rw [if_neg h]
      obtain ⟨hnd, hns⟩ := ih (key r :: seen)
      constructor
      · simp only [List.map_cons, List.nodup_cons]
        refine ⟨fun hmem => ?_, hnd⟩
        exact hns _ hmem (by simp)
      · intro k hk
        simp only [List.map_cons, List.mem_cons] at hk
        rcases hk with hk | hk
        · subst hk; exact h
        · intro hks
          exact hns k hk (by simp [hks])

theorem dedupeAux_eq_self (key : Row → String) :
    ∀ (seen : List String) (df : List Row), (df.map key).Nodup →
      (∀ k ∈ df.map key, k ∉ seen) → dedupeAux key seen df = df := by
  intro seen df
  induction df generalizing seen with
  | nil => intro _ _; rfl
  | cons r t ih =>
    intro hnd hdisj
    rw [dedupeAux, if_neg (hdisj (key r) (by simp))]
    congr 1
    simp only [List.map_cons, List.nodup_cons] at hnd
    refine ih _ hnd.2 ?_
    intro k hk
    simp only [List.mem_cons]
    push_neg
    constructor
    · intro he
      exact hnd.1 (he ▸ hk)
    · exact hdisj k (by simp [hk])

theorem map_eq_self_of_forall {α : Type} (f : α → α) (l : List α)
    (h : ∀ x ∈ l, f x = x) : l.map f = l :=
  (List.map_congr_left h).trans l.map_id

/-- Every step of the local cleaning pipeline is the identity on the
pipeline's own output. -/
theorem localClean_fixed (f : Bool) (df : List Row) :
    normalizeStrings (localClean f df) = localClean f df ∧
      dropEmpties f (localClean f df) = localClean f df ∧
      dedupeAux rowKeyLocal [] (localClean f df) = localClean f df := by
  have hsub1 : (localClean f df).Sublist
      (dropEmpties f (normalizeStrings df)) :=
    dedupeAux_sublist rowKeyLocal [] _
  have hsub2 : (localClean f df).Sublist (normalizeStrings df) :=
    hsub1.trans (List.filter_sublist _)
  have hnorm : ∀ r ∈ localClean f df, normRow r = r := by
    intro r hr
    have : r ∈ normalizeStrings df := hsub2.mem hr
    obtain ⟨r0, _, hr0⟩ := List.mem_map.mp this
    rw [← hr0]
    exact normRow_idem r0
  refine ⟨map_eq_self_of_forall normRow _ hnorm, ?_, ?_⟩
  · apply List.filter_eq_self.mpr
    intro r hr
    have hm := hsub1.mem hr
    unfold dropEmpties at hm
    simp only [List.mem_filter] at hm
    exact hm.2
  · apply dedupeAux_eq_self
    · exact (dedupeAux_keys rowKeyLocal [] _).1
    · intro k _
      simp

/-!
### The Distributed Unifier (`spark_clean.py`)

`normalize_prompt` applies three `re.sub`s in order:
`RE_IMPORT_BLOCK` (strip runs of import-statement lines, MULTILINE),
`RE_CODE_FENCE` (strip ``` fences at line starts / line ends, MULTILINE),
and `RE_MULTI_WS` + `strip` (whitespace collapse, = `squashL`).

The scanners below reproduce the deterministic leftmost-match/greedy
behaviour of those concrete patterns.  `Nat` arguments are recursion
fuel; wrappers supply more than the input length, which suffices since
every scanner step consumes at least one character.
-/

/-- The character class `[\w\.,\s\*]` of `RE_IMPORT_BLOCK`. -/
def isImpClass (c : Char) : Bool :=
  isWord c || c = '.' || c = ',' || isWs c || c = '*'

/-- The suffix of `R` strictly after its **last** newline, when `R`
contains one. -/
def afterLastNl? : List Char → Option (List Char)
  | [] => none
  | c :: t =>
    match afterLastNl? t with
    | some r => some r
    | none => if c = '\n' then some t else none

/-- The alternative `import\s+[\w\.,\s\*]+\s*\n` (with the iteration's
trailing `\s*\n` folded in, as the class contains `\s`): after the
literal `import`, take the maximal class run `R`; a match requires `R`
to start with whitespace and to contain a newline at index ≥ 2, and
greedy backtracking makes the match end just after the **last** newline
of `R`.  Returns the remainder after the match. -/
def importAlt (l : List Char) : Option (List Char) :=
  if l.take 6 = ['i', 'm', 'p', 'o', 'r', 't'] then
    match (l.drop 6).takeWhile isImpClass with
    | [] => none
    | c0 :: R2 =>
      if isWs c0 then
        match afterLastNl? (c0 :: R2) with
        | some s =>
          if s.length + 3 ≤ (c0 :: R2).length then
            some (s ++ (l.drop 6).dropWhile isImpClass)
          else none
        | none => none
      else none
  else none

/-- The tail `\s+.*\s*\n` (the part of the `from … import …` alternative
after the literal `import`, including the iteration's trailing `\s*\n`).
`W` is the greedy `\s+` run, the `.*` line runs to the next newline, and
the trailer consumes through the last newline of the following
whitespace run `V`; when the line is unterminated, backtracking instead
ends the match at the last newline inside `W` (which must leave a
non-empty `\s+` prefix). -/
def importTail (x : List Char) : Option (List Char) :=
  if (x.takeWhile isWs).isEmpty then none
  else
    match afterLastNl?
        (((x.dropWhile isWs).dropWhile fun c => !(c = '\n')).takeWhile isWs) with
    | some s =>
      some (s ++ ((x.dropWhile isWs).dropWhile fun c => !(c = '\n')).dropWhile isWs)
    | none =>
      match afterLastNl? (x.takeWhile isWs) with
      | some s2 =>
        if s2.length + 2 ≤ (x.takeWhile isWs).length then
          some (s2 ++ x.dropWhile isWs)
        else none
      | none => none

/-- Pattern `\s+` requiring at least one whitespace character; returns the
remainder after the greedy run. -/
def reqWsPlus (l : List Char) : Option (List Char) :=
  match l with
  | [] => none
  | c :: _ => if isWs c then some (l.dropWhile isWs) else none

/-- Pattern `\w+` requiring at least one word character. -/
def reqWordPlus (l : List Char) : Option (List Char) :=
  match l with
  | [] => none
  | c :: _ => if isWord c then some (l.dropWhile isWord) else none

/-- Pattern `(?:\.\w+)*`, greedy. -/
def dotWords : Nat → List Char → List Char
  | 0, l => l
  | n + 1, l =>
    match l with
    | [] => l
    | c :: rest =>
      if c = '.' then
        match rest.head? with
        | some d =>
          if isWord d then dotWords n (rest.dropWhile isWord) else l
        | none => l
      else l

/-- The alternative `from\s+\w+(?:\.\w+)*\s+import\s+.*` followed by the
iteration's `\s*\n`. -/
def fromAlt (l : List Char) : Option (List Char) :=
  if l.take 4 = ['f', 'r', 'o', 'm'] then
    (reqWsPlus (l.drop 4)).bind fun a1 =>
      (reqWordPlus a1).bind fun a2 =>
        (reqWsPlus (dotWords a2.length a2)).bind fun a4 =>
          if a4.take 6 = ['i', 'm', 'p', 'o', 'r', 't'] then
            importTail (a4.drop 6)
          else none
  else none

/-- One iteration `\s*(?:FROM | IMPORT)…\n` of `RE_IMPORT_BLOCK`:
leading whitespace, then the first alternative that matches. -/
def iterAlt (l : List Char) : Option (List Char) :=
  match fromAlt (l.dropWhile isWs) with
  | some r => some r
  | none => importAlt (l.dropWhile isWs)

/-- Pattern `(?:iteration)+`, greedy: as many iterations as possible (each ends
just after a newline, hence at a line start). -/
def blockAux : Nat → List Char → Option (List Char)
  | 0, _ => none
  | n + 1, l =>
    match iterAlt l with
    | none => none
    | some r =>
      match blockAux n r with
      | some r2 => some r2
      | none => some r

/-- Model of `RE_IMPORT_BLOCK.sub("", ·)`: scan left to right; at every line
start try the block, remove it if it matches, otherwise advance one
character. -/
def importSubAux : Nat → Bool → List Char → List Char
  | 0, _, l => l
  | n + 1, lineStart, l =>
    if lineStart then
      match blockAux (n + 1) l with
      | some r => importSubAux n true r
      | none =>
        match l with
        | [] => []
        | c :: t => c :: importSubAux n (c = '\n') t
    else
      match l with
      | [] => []
      | c :: t => c :: importSubAux n (c = '\n') t

def importSub (l : List Char) : List Char := importSubAux (l.length + 1) true l

/-- Model of `RE_CODE_FENCE.sub("", ·)` with pattern
`^```(?:\w+)?\s*|\s*```$` (MULTILINE): at a line start a fence opener
(with optional language word and trailing whitespace) is removed; at any
position a run of whitespace followed by ``` sitting at a line end is
removed; otherwise advance one character. -/
def fenceSubAux : Nat → Bool → List Char → List Char
  | 0, _, l => l
  | n + 1, lineStart, l =>
    match l with
    | [] => []
    | c :: t =>
      if lineStart && c = '`' && t.take 2 = ['`', '`'] then
        fenceSubAux n
          ((((t.drop 2).dropWhile isWord).takeWhile isWs).getLast? = some '\n')
          (((t.drop 2).dropWhile isWord).dropWhile isWs)
      else
        if ((c :: t).dropWhile isWs).take 3 = ['`', '`', '`'] &&
            ((((c :: t).dropWhile isWs).drop 3).isEmpty ||
              (((c :: t).dropWhile isWs).drop 3).head? = some '\n') then
          fenceSubAux n false (((c :: t).dropWhile isWs).drop 3)
        else c :: fenceSubAux n (c = '\n') t

def fenceSub (l : List Char) : List Char := fenceSubAux (l.length + 1) true l

/-- Function `normalize_prompt` from `spark_clean.py`. -/
def normalize_prompt (txt : String) : String :=
  if txt = "" then ""
  else ⟨squashL (fenceSub (importSub txt.data))⟩

/-- The row filter of step 3:
`.where(F.length("prompt") >= 20).where(~F.col("prompt").rlike(r"^\s*$"))`.
`rlike "^\s*$"` holds exactly when the whole string is whitespace (the
empty string included). -/
def sparkKeep (p : String) : Bool := 20 ≤ p.length && !(p.data.all isWs)

/-- Model of `withColumn("prompt", normalize_prompt_udf(col("prompt")))`. -/
def updPrompt (r : Row) : Row := { r with prompt := normalize_prompt r.prompt }

/-- Steps 3 of the unifier: re-normalise every prompt, then filter. -/
def sparkNormFilter (rows : List Row) : List Row :=
  (rows.map updPrompt).filter fun r => sparkKeep r.prompt

/-- The byte string hashed into `hash_key`:
`F.sha2(F.concat_ws("||", "source", "title", "prompt"), 256)`.  As with
`rowKeyLocal`, the digest is modelled by its pre-hash input. -/
def sparkKeyInput (r : Row) : String :=
  r.source ++ "||" ++ r.title ++ "||" ++ r.prompt

/-- Steps 3–4 of the unifier: normalise, filter, then
`dropDuplicates(["hash_key"])` (one surviving row per key; the model
keeps the first, the engine an arbitrary one — the spec documents the
tie-break as unspecified). -/
def sparkUnify (rows : List Row) : List Row :=
  dedupeAux sparkKeyInput [] (sparkNormFilter rows)

/-- Model of `F.countDistinct("source")` over the final frame. -/
def sourcesStat (rows : List Row) : Nat := ((rows.map Row.source).dedup).length

theorem dedupeAux_countP (key : Row → String) :
    ∀ (l : List Row) (seen : List String) (k : String),
      (dedupeAux key seen l).countP (fun r => key r == k) =
        if k ∈ seen then 0 else if k ∈ l.map key then 1 else 0 := by
  intro l
  induction l with
  | nil =>
    intro seen k
    by_cases h : k ∈ seen <;> simp [dedupeAux, h]
  | cons r t ih =>
    intro seen k
    rw [dedupeAux]
    by_cases hr : key r ∈ seen
    · rw [if_pos hr, ih]
      by_cases hk : k ∈ seen
      · simp [hk]
      · have hne : k ≠ key r := fun he => hk (he ▸ hr)
        simp [hk, List.mem_cons, hne]
    · rw [if_neg hr]
      rw [List.countP_cons, ih]
      by_cases hk : k = key r
      · subst hk
        simp [hr]
      · have h1 : (key r == k) = false := by
          simp [Ne.symm hk]
        by_cases hks : k ∈ seen
        · simp [hks, h1, Ne.symm hk]
        · simp [hks, h1, List.mem_cons, hk, Ne.symm hk]

/-!
### Source mappers (`download_hf.py`) and the unified schema
-/

/-- The key order of `UNIFIED_CODE_COLUMNS` (`schemas/columns.py`) and of
`UNIFIED_COLS` (`spark_clean.py`). -/
def UNIFIED_CODE_COLUMNS : List String :=
  ["source", "dataset_id", "title", "prompt", "solution", "language",
   "difficulty", "tags", "split"]

/-- A raw value of a heterogeneous record: a string, a list of strings,
or Python `None` (also standing for a missing key in `rec.get`). -/
inductive PyVal where
  | pstr : String → PyVal
  | plist : List String → PyVal
  | pnone : PyVal
deriving DecidableEq

/-- Python `str(v)` (the list case models `str` of a list of strings
without escaping, which the concrete inputs below never hit). -/
def pyToStr : PyVal → String
  | .pstr s => s
  | .pnone => "None"
  | .plist l =>
      "[" ++ String.intercalate ", " (l.map fun s => "\x27" ++ s ++ "\x27") ++ "]"

/-- Python truthiness of a raw value. -/
def pyTruthy : PyVal → Bool
  | .pstr s => !(s = "")
  | .plist l => !(l = [])
  | .pnone => false

/-- Python `a or b`. -/
def pyOr (a b : PyVal) : PyVal := if pyTruthy a then a else b

/-- Python `str.strip()`. -/
def stripS (s : String) : String := ⟨stripWs s.data⟩

/-- Model of `_first(rec, keys)` from `download_hf.py` (the module-level helper
and the identical copy inside `map_leetcode`): skip `None` values, strip
the stringified value, and return the first that is non-empty and whose
lowercase form is not `"none"`. -/
def firstKey (rec : String → PyVal) : List String → String
  | [] => ""
  | k :: t =>
    match rec k with
    | .pnone => firstKey rec t
    | v =>
      if stripS (pyToStr v) ≠ "" && lowerS (stripS (pyToStr v)) ≠ "none" then
        stripS (pyToStr v)
      else firstKey rec t

/-- Modelled from the spec: the field-selection policy — "for each output
field, probe an ordered list of candidate source-field names; take the
first whose stringified, trimmed value is non-empty and not a literal
missing marker; otherwise emit empty string". -/
def specFirstPresent (rec : String → PyVal) (keys : List String) : String :=
  match (keys.map fun k => stripS (pyToStr (rec k))).find?
      (fun s => s ≠ "" && lowerS s ≠ "none") with
  | some s => s
  | none => ""

/-- Model of `",".join(rec.get("tags", []) or [])`: `None`/missing/empty values
become the empty join; joining a string iterates its characters. -/
def tagsJoin (v : PyVal) : String :=
  match pyOr v (.plist []) with
  | .plist l => String.intercalate "," l
  | .pstr s => String.intercalate "," (s.data.map fun c => String.singleton c)
  | .pnone => ""

/-- Model of `map_leetcode`, as the association list of its dict literal. -/
def map_leetcode (rec : String → PyVal) : List (String × String) :=
  [("source", "LeetCodeDataset"),
   ("dataset_id", firstKey rec ["question_id", "id"]),
   ("title",
     if firstKey rec ["title", "question_title"] ≠ "" then
       firstKey rec ["title", "question_title"]
     else if firstKey rec ["question_id", "id"] ≠ "" then
       "leetcode_" ++ firstKey rec ["question_id", "id"]
     else "leetcode_problem"),
   ("prompt", firstKey rec
     ["content", "translatedContent", "description", "question", "body",
      "prompt"]),
   ("solution", firstKey rec
     ["solution", "accepted_answer", "reference_solution"]),
   ("language", ""),
   ("difficulty", firstKey rec ["difficulty", "level"]),
   ("tags", tagsJoin (rec "tags")),
   ("split", "")]

/-- Model of `map_apps`: `or`-chains of raw values (first *truthy* wins), with the
`solutions` list joined by `"\n\n---\n\n"`. -/
def map_apps (rec : String → PyVal) : List (String × String) :=
  [("source", "APPS"),
   ("dataset_id",
     pyToStr (pyOr (rec "problem_id") (pyOr (rec "id") (.pstr "")))),
   ("title", pyToStr (pyOr (rec "title") (.pstr ""))),
   ("prompt",
     pyToStr (pyOr (rec "question") (pyOr (rec "prompt") (.pstr "")))),
   ("solution",
     pyToStr (pyOr
       (match rec "solutions" with
        | .plist l => .pstr (String.intercalate "\n\n---\n\n" l)
        | v => v)
       (pyOr (rec "solution") (.pstr "")))),
   ("language", "python"),
   ("difficulty", pyToStr (pyOr (rec "difficulty") (.pstr ""))),
   ("tags", ""),
   ("split", "")]

/-- Model of `map_codeforces`. -/
def map_codeforces (rec : String → PyVal) : List (String × String) :=
  [("source", "Codeforces"),
   ("dataset_id",
     pyToStr (pyOr (rec "id") (pyOr (rec "problem_id") (.pstr "")))),
   ("title", pyToStr (pyOr (rec "name") (pyOr (rec "title") (.pstr "")))),
   ("prompt",
     pyToStr (pyOr (rec "statement")
       (pyOr (rec "prompt") (pyOr (rec "description") (.pstr ""))))),
   ("solution", ""),
   ("language", ""),
   ("difficulty",
     pyToStr (pyOr (rec "rating") (pyOr (rec "difficulty") (.pstr "")))),
   ("tags", tagsJoin (rec "tags")),
   ("split", "")]

/-- Model of `map_codesearchnet`. -/
def map_codesearchnet (rec : String → PyVal) : List (String × String) :=
  [("source", "CodeSearchNet"),
   ("dataset_id",
     pyToStr (pyOr (rec "func_id") (pyOr (rec "id") (.pstr "")))),
   ("title",
     pyToStr (pyOr (rec "func_name") (pyOr (rec "path") (.pstr "")))),
   ("prompt",
     pyToStr (pyOr (rec "docstring")
       (pyOr (rec "original_string") (.pstr "")))),
   ("solution", pyToStr (pyOr (rec "code") (.pstr ""))),
   ("language",
     pyToStr (pyOr (rec "language")
       (pyOr (rec "programming_language") (.pstr "")))),
   ("difficulty", ""),
   ("tags", ""),
   ("split", "")]

/-- The mapper components of `REGISTRY`, in registry order. -/
def registryMappers : List ((String → PyVal) → List (String × String)) :=
  [map_leetcode, map_apps, map_codeforces, map_codesearchnet]

/-- First-occurrence lookup of a column in an association-list record. -/
def lookupA : List (String × String) → String → Option String
  | [], _ => none
  | (k, v) :: t, c => if k = c then some v else lookupA t c

/-- Model of `_enforce_unified` (and the column fix-up of `_read_parquet` and of
spark step 2): synthesise missing unified columns as `""`, select exactly
the unified columns in order (extras dropped). -/
def enforceUnified (r : List (String × String)) : List (String × String) :=
  UNIFIED_CODE_COLUMNS.map fun c => (c, (lookupA r c).getD "")

/-- View a schema-enforced record as a `Row`. -/
def rowOfAssoc (r : List (String × String)) : Row where
  source := (lookupA r "source").getD ""
  dataset_id := (lookupA r "dataset_id").getD ""
  title := (lookupA r "title").getD ""
  prompt := (lookupA r "prompt").getD ""
  solution := (lookupA r "solution").getD ""
  language := (lookupA r "language").getD ""
  difficulty := (lookupA r "difficulty").getD ""
  tags := (lookupA r "tags").getD ""
  split := (lookupA r "split").getD ""

/-!
### `clean_one` and its filesystem interaction

`clean_one` is modelled against an abstract read-only filesystem
`fs : path ↦ Option table` (a table is a list of raw association-list
records, as `_read_parquet` re-enforces the schema anyway).  A missing
input produces `Except.error` carrying the reported message and no
output; success produces the output path and the cleaned table.
-/

def rawPath (dataset_key split : String) : String :=
  "data/raw/" ++ dataset_key ++ "/" ++ split ++ ".parquet"

def cleanPath (dataset_key split : String) : String :=
  "data/clean/" ++ dataset_key ++ "/" ++ split ++ ".parquet"

def clean_one (fs : String → Option (List (List (String × String))))
    (dataset_key split : String) (require_solution : Bool) :
    Except String (String × List Row) :=
  match fs (rawPath dataset_key split) with
  | none => .error ("Missing input file: " ++ rawPath dataset_key split)
  | some t =>
    .ok (cleanPath dataset_key split,
      localClean require_solution (t.map fun r => rowOfAssoc (enforceUnified r)))

/-!
### `normalize_prompt` on newline-free input

Both regex substitutions of `normalize_prompt` can only fire around
newlines or string-edge code fences, so on collapsed output they are
inert; these lemmas drive the idempotence analysis.
-/

theorem string_ext {s t : String} (h : s.data = t.data) : s = t := by
  cases s
  cases t
  exact congrArg String.mk h

theorem afterLastNl?_eq_none {l : List Char} (h : '\n' ∉ l) :
    afterLastNl? l = none := by
  induction l with
  | nil => rfl
  | cons c t ih =>
    have hc : ¬(c = '\n') := fun he => h (he ▸ List.mem_cons_self c t)
    have ht : afterLastNl? t = none := ih fun hm => h (List.mem_cons_of_mem c hm)
    simp only [afterLastNl?, ht, if_neg hc]

theorem not_nl_of_sublist {l m : List Char} (hs : m.Sublist l)
    (h : '\n' ∉ l) : '\n' ∉ m := fun hm => h (hs.mem hm)

theorem not_nl_takeWhile {l : List Char} (p : Char → Bool) (h : '\n' ∉ l) :
    '\n' ∉ l.takeWhile p :=
  not_nl_of_sublist (List.takeWhile_prefix p).sublist h

theorem not_nl_dropWhile {l : List Char} (p : Char → Bool) (h : '\n' ∉ l) :
    '\n' ∉ l.dropWhile p :=
  not_nl_of_sublist (List.dropWhile_sublist _) h

theorem not_nl_drop {l : List Char} (n : Nat) (h : '\n' ∉ l) :
    '\n' ∉ l.drop n :=
  not_nl_of_sublist (List.drop_sublist n l) h

theorem importTail_none {x : List Char} (h : '\n' ∉ x) :
    importTail x = none := by
  unfold importTail
  by_cases hW : (x.takeWhile isWs).isEmpty
  · rw [if_pos hW]
  · rw [if_neg hW]
    have hafterL : (x.dropWhile isWs).dropWhile (fun c => !(c = '\n')) = [] := by
      apply List.dropWhile_eq_nil_iff.mpr
      intro a ha
      have : ¬(a = '\n') := by
        intro he
        exact not_nl_dropWhile isWs h (he ▸ ha)
      simp [this]
    rw [hafterL]
    simp only [List.takeWhile_nil]
    rw [show afterLastNl? [] = none from rfl,
      afterLastNl?_eq_none (not_nl_takeWhile isWs h)]

theorem reqWsPlus_some {x y : List Char} (h : reqWsPlus x = some y) :
    y = x.dropWhile isWs := by
  cases x with
  | nil => cases h
  | cons c t =>
    simp only [reqWsPlus] at h
    by_cases hc : isWs c = true
    · rw [if_pos hc] at h
      cases h
      rfl
    · rw [if_neg hc] at h
      cases h

theorem reqWordPlus_some {x y : List Char} (h : reqWordPlus x = some y) :
    y = x.dropWhile isWord := by
  cases x with
  | nil => cases h
  | cons c t =>
    simp only [reqWordPlus] at h
    by_cases hc : isWord c = true
    · rw [if_pos hc] at h
      cases h
      rfl
    · rw [if_neg hc] at h
      cases h

theorem dotWords_sublist : ∀ (n : Nat) (l : List Char),
    (dotWords n l).Sublist l := by
  intro n
  induction n with
  | zero => intro l; exact List.Sublist.refl l
  | succ m ih =>
    intro l
    cases l with
    | nil => exact List.Sublist.refl _
    | cons c rest =>
      rw [dotWords]
      by_cases hc : c = '.'
      · rw [if_pos hc]
        cases rest with
        | nil => exact List.Sublist.refl _
        | cons d rs =>
          show (if isWord d = true then
              dotWords m ((d :: rs).dropWhile isWord)
            else c :: d :: rs).Sublist (c :: d :: rs)
          by_cases hd : isWord d = true
          · rw [if_pos hd]
            exact ((ih _).trans (List.dropWhile_sublist _)).trans
              (List.sublist_cons_self c (d :: rs))
          · rw [if_neg hd]
      · rw [if_neg hc]

theorem fromAlt_none {l : List Char} (h : '\n' ∉ l) : fromAlt l = none := by
  unfold fromAlt
  by_cases h4 : l.take 4 = ['f', 'r', 'o', 'm']
  · rw [if_pos h4]
    cases h1 : reqWsPlus (l.drop 4) with
    | none => rfl
    | some a1 =>
      have ha1 : '\n' ∉ a1 := by
        rw [reqWsPlus_some h1]
        exact not_nl_dropWhile isWs (not_nl_drop 4 h)
      rw [Option.some_bind]
      cases h2 : reqWordPlus a1 with
      | none => rfl
      | some a2 =>
        have ha2 : '\n' ∉ a2 := by
          rw [reqWordPlus_some h2]
          exact not_nl_dropWhile isWord ha1
        rw [Option.some_bind]
        cases h3 : reqWsPlus (dotWords a2.length a2) with
        | none => rfl
        | some a4 =>
          have ha4 : '\n' ∉ a4 := by
            rw [reqWsPlus_some h3]
            exact not_nl_dropWhile isWs
              (not_nl_of_sublist (dotWords_sublist _ _) ha2)
          rw [Option.some_bind]
          by_cases h6 : a4.take 6 = ['i', 'm', 'p', 'o', 'r', 't']
          · rw [if_pos h6]
            exact importTail_none (not_nl_drop 6 ha4)
          · rw [if_neg h6]
  · rw [if_neg h4]

theorem importAlt_none {l : List Char} (h : '\n' ∉ l) : importAlt l = none := by
  unfold importAlt
  by_cases h6 : l.take 6 = ['i', 'm', 'p', 'o', 'r', 't']
  · rw [if_pos h6]
    cases hh : (l.drop 6).takeWhile isImpClass with
    | nil => rfl
    | cons c0 R2 =>
      have hnl : afterLastNl? (c0 :: R2) = none := by
        rw [← hh]
        exact afterLastNl?_eq_none
          (not_nl_takeWhile isImpClass (not_nl_drop 6 h))
      show (if isWs c0 = true then
          (match afterLastNl? (c0 :: R2) with
           | some s =>
             if s.length + 3 ≤ (c0 :: R2).length then
               some (s ++ (l.drop 6).dropWhile isImpClass)
             else none
           | none => none)
        else none) = none
      by_cases hc : isWs c0 = true
      · rw [if_pos hc, hnl]
      · rw [if_neg hc]
  · rw [if_neg h6]

theorem iterAlt_none {l : List Char} (h : '\n' ∉ l) : iterAlt l = none := by
  unfold iterAlt
  rw [fromAlt_none (not_nl_dropWhile isWs h),
    importAlt_none (not_nl_dropWhile isWs h)]

theorem blockAux_none (n : Nat) {l : List Char} (h : '\n' ∉ l) :
    blockAux n l = none := by
  cases n with
  | zero => rfl
  | succ m => simp only [blockAux, iterAlt_none h]

theorem importSubAux_id : ∀ (n : Nat) (b : Bool) (l : List Char),
    '\n' ∉ l → importSubAux n b l = l := by
  intro n
  induction n with
  | zero => intro b l _; rfl
  | succ m ih =>
    intro b l h
    have hb : blockAux (m + 1) l = none := blockAux_none (m + 1) h
    cases b with
    | true =>
      cases l with
      | nil =>
        show (match blockAux (m + 1) [] with
          | some r => importSubAux m true r
          | none => ([] : List Char)) = []
        rw [hb]
      | cons c t =>
        have ht : '\n' ∉ t := fun hm => h (List.mem_cons_of_mem c hm)
        show (match blockAux (m + 1) (c :: t) with
          | some r => importSubAux m true r
          | none => c :: importSubAux m (c = '\n') t) = c :: t
        rw [hb, ih _ t ht]
    | false =>
      cases l with
      | nil => rfl
      | cons c t =>
        have ht : '\n' ∉ t := fun hm => h (List.mem_cons_of_mem c hm)
        show c :: importSubAux m (c = '\n') t = c :: t
        rw [ih _ t ht]

theorem importSub_id {l : List Char} (h : '\n' ∉ l) : importSub l = l :=
  importSubAux_id _ true l h

/-- Whether `l` begins with a code fence. -/
def startsFence (l : List Char) : Bool := l.take 3 = ['`', '`', '`']

/-- Whether `l` ends with a code fence. -/
def endsFence (l : List Char) : Bool := l.reverse.take 3 = ['`', '`', '`']

theorem endsFence_append_fence (a : List Char) :
    endsFence (a ++ ['`', '`', '`']) = true := by
  unfold endsFence
  apply decide_eq_true
  rw [List.reverse_append, List.take_append_of_le_length (by simp)]
  rfl

theorem endsFence_tail {c : Char} {t : List Char}
    (h : endsFence (c :: t) = false) : endsFence t = false := by
  by_cases ht : endsFence t = true
  · exfalso
    unfold endsFence at ht h
    have ht2 : t.reverse.take 3 = ['`', '`', '`'] := of_decide_eq_true ht
    have hlen : 3 ≤ t.reverse.length := by
      by_contra hlt
      push_neg at hlt
      have := congrArg List.length ht2
      rw [List.length_take] at this
      simp only [List.length_cons, List.length_nil] at this
      omega
    have h2 : (c :: t).reverse.take 3 = ['`', '`', '`'] := by
      rw [List.reverse_cons, List.take_append_of_le_length hlen, ht2]
    rw [decide_eq_true h2] at h
    cases h
  · simpa using ht

theorem fenceSubAux_id : ∀ (n : Nat) (b : Bool) (l : List Char),
    '\n' ∉ l → endsFence l = false → (b = true → startsFence l = false) →
    fenceSubAux n b l = l := by
  intro n
  induction n with
  | zero => intro b l _ _ _; rfl
  | succ m ih =>
    intro b l hnl hend hstart
    cases l with
    | nil => cases b <;> rfl
    | cons c t =>
      have hcond1 : (b && c = '`' && t.take 2 = ['`', '`']) = false := by
        cases b with
        | false => rfl
        | true =>
          have hsf := hstart rfl
          by_cases hc : c = '`'
          · by_cases ht2 : t.take 2 = ['`', '`']
            · exfalso
              unfold startsFence at hsf
              rw [List.take_succ_cons, ht2, hc] at hsf
              simp at hsf
            · simp [ht2]
          · simp [hc]
      have hcond2 : (((c :: t).dropWhile isWs).take 3 = ['`', '`', '`'] &&
          ((((c :: t).dropWhile isWs).drop 3).isEmpty ||
            (((c :: t).dropWhile isWs).drop 3).head? = some '\n')) = false := by
        by_cases h3 : ((c :: t).dropWhile isWs).take 3 = ['`', '`', '`']
        · have hnodrop : ¬((((c :: t).dropWhile isWs).drop 3).head? = some '\n') := by
            intro hhd
            cases hd : ((c :: t).dropWhile isWs).drop 3 with
            | nil => rw [hd] at hhd; cases hhd
            | cons e r =>
              rw [hd] at hhd
              simp only [List.head?_cons, Option.some.injEq] at hhd
              have : '\n' ∈ (c :: t).dropWhile isWs := by
                have : e ∈ ((c :: t).dropWhile isWs).drop 3 := by
                  rw [hd]; simp
                exact hhd ▸ (List.drop_sublist 3 _).mem this
              exact not_nl_dropWhile isWs hnl this
          by_cases hemp : (((c :: t).dropWhile isWs).drop 3).isEmpty
          · exfalso
            have hrest : (c :: t).dropWhile isWs = ['`', '`', '`'] := by
              rw [← List.take_append_drop 3 ((c :: t).dropWhile isWs), h3]
              have : ((c :: t).dropWhile isWs).drop 3 = [] :=
                List.isEmpty_iff.mp hemp
              rw [this, List.append_nil]
            have : endsFence (c :: t) = true := by
              have hsplit := List.takeWhile_append_dropWhile
                (p := isWs) (l := c :: t)
              rw [← hsplit, hrest]
              exact endsFence_append_fence _
            rw [this] at hend
            cases hend
          · have hCf : decide
                ((((c :: t).dropWhile isWs).drop 3).head? = some '\n') =
                  false := decide_eq_false hnodrop
            have hBf : (((c :: t).dropWhile isWs).drop 3).isEmpty = false := by
              simpa using hemp
            rw [hBf, hCf]
            simp
        · rw [decide_eq_false h3]
          simp
      rw [fenceSubAux, if_neg (by rw [hcond1]; simp),
        if_neg (by rw [hcond2]; simp)]
      have hc : ¬(c = '\n') := fun he => hnl (he ▸ List.mem_cons_self c t)
      have ht : '\n' ∉ t := fun hm => hnl (List.mem_cons_of_mem c hm)
      rw [ih _ t ht (endsFence_tail hend) (by intro hcc; simp [hc] at hcc)]

theorem fenceSub_id {l : List Char} (hnl : '\n' ∉ l)
    (hend : endsFence l = false) (hstart : startsFence l = false) :
    fenceSub l = l :=
  fenceSubAux_id _ true l hnl hend (fun _ => hstart)

theorem wsOnly_noNl {l : List Char} (h : wsSpacesOnly l = true) : '\n' ∉ l := by
  intro hm
  have := wsSpacesOnly_mem h hm (by decide)
  cases this

theorem goodL_normalize_prompt (txt : String) :
    goodL (normalize_prompt txt).data := by
  unfold normalize_prompt
  by_cases h : txt = ""
  · rw [if_pos h]; exact goodL_nil
  · rw [if_neg h]; exact goodL_squashL _

/-!
### Injectivity of the delimited global key on bar-free fields
-/

theorem append_bar_inj : ∀ (a b x y : List Char), '|' ∉ a → '|' ∉ b →
    a ++ '|' :: x = b ++ '|' :: y → a = b ∧ x = y := by
  intro a
  induction a with
  | nil =>
    intro b x y _ hb h
    cases b with
    | nil =>
      simp only [List.nil_append, List.cons.injEq] at h
      exact ⟨rfl, h.2⟩
    | cons d bt =>
      simp only [List.nil_append, List.cons_append, List.cons.injEq] at h
      exfalso
      exact hb (h.1 ▸ List.mem_cons_self d bt)
  | cons c ct ih =>
    intro b x y ha hb h
    cases b with
    | nil =>
      simp only [List.cons_append, List.nil_append, List.cons.injEq] at h
      exfalso
      exact ha (h.1.symm ▸ List.mem_cons_self c ct)
    | cons d bt =>
      simp only [List.cons_append, List.cons.injEq] at h
      have hct : '|' ∉ ct := fun hm => ha (List.mem_cons_of_mem c hm)
      have hbt : '|' ∉ bt := fun hm => hb (List.mem_cons_of_mem d hm)
      obtain ⟨he, hx⟩ := ih bt x y hct hbt h.2
      exact ⟨by rw [h.1, he], hx⟩

theorem sparkKeyInput_inj {r1 r2 : Row}
    (h1 : '|' ∉ r1.source.data) (h2 : '|' ∉ r1.title.data)
    (h3 : '|' ∉ r2.source.data) (h4 : '|' ∉ r2.title.data)
    (h : sparkKeyInput r1 = sparkKeyInput r2) :
    r1.source = r2.source ∧ r1.title = r2.title ∧ r1.prompt = r2.prompt := by
  have hd := congrArg String.data h
  unfold sparkKeyInput at hd
  simp only [String.data_append, List.append_assoc] at hd
  have hd2 : r1.source.data ++ '|' ::
      ('|' :: (r1.title.data ++ '|' :: ('|' :: r1.prompt.data))) =
      r2.source.data ++ '|' ::
      ('|' :: (r2.title.data ++ '|' :: ('|' :: r2.prompt.data))) := by
    simpa using hd
  obtain ⟨hsrc, hrest⟩ :=
    append_bar_inj _ _ _ _ h1 h3 hd2
  simp only [List.cons.injEq, true_and] at hrest
  obtain ⟨htitle, hrest2⟩ := append_bar_inj _ _ _ _ h2 h4 hrest
  simp only [List.cons.injEq, true_and] at hrest2
  exact ⟨string_ext hsrc, string_ext htitle, string_ext hrest2⟩

/-!
### `_first` implements the spec's field-selection policy
-/

theorem specFirstPresent_cons (rec : String → PyVal) (k : String)
    (t : List String) :
    specFirstPresent rec (k :: t) =
      if (stripS (pyToStr (rec k)) ≠ "" &&
          lowerS (stripS (pyToStr (rec k))) ≠ "none") = true then
        stripS (pyToStr (rec k))
      else specFirstPresent rec t := by
  unfold specFirstPresent
  rw [List.map_cons]
  by_cases hq : (stripS (pyToStr (rec k)) ≠ "" &&
      lowerS (stripS (pyToStr (rec k))) ≠ "none") = true
  · rw [@List.find?_cons_of_pos String (fun s => s ≠ "" && lowerS s ≠ "none")
      (stripS (pyToStr (rec k))) (t.map fun k2 => stripS (pyToStr (rec k2)))
      hq, if_pos hq]
  · rw [@List.find?_cons_of_neg String (fun s => s ≠ "" && lowerS s ≠ "none")
      (stripS (pyToStr (rec k))) (t.map fun k2 => stripS (pyToStr (rec k2)))
      (by simpa using hq), if_neg hq]

theorem firstKey_eq_spec (rec : String → PyVal) :
    ∀ keys, firstKey rec keys = specFirstPresent rec keys := by
  intro keys
  induction keys with
  | nil => rfl
  | cons k t ih =>
    rw [specFirstPresent_cons]
    cases hv : rec k with
    | pnone =>
      have hl : firstKey rec (k :: t) = firstKey rec t := by
        simp only [firstKey]
        rw [hv]
      rw [hl, ih, if_neg (by decide)]
    | pstr s =>
      by_cases hq : (stripS (pyToStr (PyVal.pstr s)) ≠ "" &&
          lowerS (stripS (pyToStr (PyVal.pstr s))) ≠ "none") = true
      · have hl : firstKey rec (k :: t) = stripS (pyToStr (PyVal.pstr s)) := by
          simp only [firstKey]
          rw [hv]
          exact if_pos hq
        rw [hl, if_pos hq]
      · have hl : firstKey rec (k :: t) = firstKey rec t := by
          simp only [firstKey]
          rw [hv]
          exact if_neg hq
        rw [hl, ih, if_neg hq]
    | plist l =>
      by_cases hq : (stripS (pyToStr (PyVal.plist l)) ≠ "" &&
          lowerS (stripS (pyToStr (PyVal.plist l))) ≠ "none") = true
      · have hl : firstKey rec (k :: t) = stripS (pyToStr (PyVal.plist l)) := by
          simp only [firstKey]
          rw [hv]
          exact if_pos hq
        rw [hl, if_pos hq]
      · have hl : firstKey rec (k :: t) = firstKey rec t := by
          simp only [firstKey]
          rw [hv]
          exact if_neg hq
        rw [hl, ih, if_neg hq]

/-!
### Concrete inputs used by claim theorems, witnesses and counterexamples
-/

/-- Two rows whose `(source, title, prompt)` triples differ although the
delimiter-free local hash input is the same byte string. -/
def c1rowA : Row :=
  { source := "ab", dataset_id := "", title := "c", prompt := "",
    solution := "", language := "", difficulty := "", tags := "", split := "" }

def c1rowB : Row :=
  { source := "a", dataset_id := "", title := "bc", prompt := "",
    solution := "", language := "", difficulty := "", tags := "", split := "" }

/-- Two rows with identical `(source, title, prompt)` but different
`dataset_id`. -/
def c1rowC : Row :=
  { source := "srcX", dataset_id := "7", title := "ttl",
    prompt := "prm", solution := "", language := "", difficulty := "",
    tags := "", split := "" }

def c1rowD : Row :=
  { source := "srcX", dataset_id := "8", title := "ttl",
    prompt := "prm", solution := "sol", language := "", difficulty := "",
    tags := "", split := "" }

/-- The raw record of spec scenario 1. -/
def c2rec : String → PyVal := fun k =>
  if k = "question_id" then .pstr "42"
  else if k = "title" then .pstr "Two Sum"
  else if k = "content" then
    .pstr "```python\nimport os\nSolve it. xxxxxxxxxxxxxxxxxxxxxxxxxxxxxx```"
  else .pnone

/-- Scenario 1 after mapping and schema enforcement. -/
def c2row : Row := rowOfAssoc (enforceUnified (map_leetcode c2rec))

/-- Cleaned rows of two sources sharing one duplicated row
(spec scenario 4). -/
def c5rowA : Row :=
  { source := "sourceA", dataset_id := "1", title := "alpha",
    prompt := "this is a sufficiently long prompt one", solution := "",
    language := "", difficulty := "", tags := "", split := "train" }

def c5dup : Row :=
  { source := "sourceA", dataset_id := "2", title := "shared",
    prompt := "this duplicated row prompt is long enough", solution := "",
    language := "", difficulty := "", tags := "", split := "train" }

def c5rowB : Row :=
  { source := "sourceB", dataset_id := "3", title := "beta",
    prompt := "this is a sufficiently long prompt two", solution := "",
    language := "", difficulty := "", tags := "", split := "train" }

/-- A row whose normalized prompt has exactly 19 characters. -/
def c8row19 : Row :=
  { source := "s1", dataset_id := "", title := "",
    prompt := "abcdefghijklmnopqrs", solution := "", language := "",
    difficulty := "", tags := "", split := "" }

/-- A row whose normalized prompt has exactly 20 non-whitespace
characters. -/
def c8row20 : Row :=
  { source := "s2", dataset_id := "", title := "",
    prompt := "abcdefghijklmnopqrst", solution := "", language := "",
    difficulty := "", tags := "", split := "" }

/-- A filesystem with no files. -/
def c9fsEmpty : String → Option (List (List (String × String))) :=
  fun _ => none

/-- A filesystem holding one empty raw table for `apps/train`. -/
def c9fsApps : String → Option (List (List (String × String))) :=
  fun p => if p = rawPath "apps" "train" then some [] else none

/-- A raw record whose only candidate value is the literal missing
marker `"none"`. -/
def c7rec : String → PyVal := fun k =>
  if k = "question" then .pstr "none" else .pnone

/-!
### Claim theorems
-/

/-- C1 (counterexample): the rows `("ab","c","")` and `("a","bc","")`
have different `(source, title, prompt)` triples, yet `_dedupe` hashes
the same byte string for both — the fields are concatenated with **no**
delimiter, so equal keys do not require a hash collision.  This refutes
the claim that keys differ (up to negligible collisions) whenever the
triples differ. -/
theorem c1_identity_key_counterexample :
    rowKeyLocal c1rowA = rowKeyLocal c1rowB ∧
      ¬(c1rowA.source = c1rowB.source ∧ c1rowA.title = c1rowB.title ∧
        c1rowA.prompt = c1rowB.prompt) := by decide

/-- C1 (amended): rows with identical `(source, title, prompt)` always
get equal local (`_dedupe`) and global (`sha2` over
`concat_ws("||", …)`) identity-key inputs; and the global key input is
injective on the triple when the fields contain no `'|'` character.
Without that restriction distinct triples can share a key exactly (no
delimiter locally; `"||"` may occur in field content globally). -/
theorem c1_identity_key :
    ∀ r1 r2 : Row,
      ((r1.source = r2.source ∧ r1.title = r2.title ∧
          r1.prompt = r2.prompt) →
        rowKeyLocal r1 = rowKeyLocal r2 ∧
          sparkKeyInput r1 = sparkKeyInput r2) ∧
      ('|' ∉ r1.source.data → '|' ∉ r1.title.data →
        '|' ∉ r2.source.data → '|' ∉ r2.title.data →
        sparkKeyInput r1 = sparkKeyInput r2 →
        r1.source = r2.source ∧ r1.title = r2.title ∧
          r1.prompt = r2.prompt) := by
  intro r1 r2
  constructor
  · rintro ⟨h1, h2, h3⟩
    unfold rowKeyLocal sparkKeyInput
    rw [h1, h2, h3]
    exact ⟨rfl, rfl⟩
  · intro h1 h2 h3 h4 h
    exact sparkKeyInput_inj h1 h2 h3 h4 h

theorem c1_identity_key_witness :
    (rowKeyLocal c1rowC = rowKeyLocal c1rowD ∧
      sparkKeyInput c1rowC = sparkKeyInput c1rowD) ∧
    (c1rowC.source = c1rowD.source ∧ c1rowC.title = c1rowD.title ∧
      c1rowC.prompt = c1rowD.prompt) :=
  ⟨(c1_identity_key c1rowC c1rowD).1 (by decide),
    (c1_identity_key c1rowC c1rowD).2 (by decide) (by decide) (by decide)
      (by decide) (by decide)⟩

/-- C2 (counterexample): on the scenario-1 record, mapping with
`map_leetcode` followed by the Local Cleaner's normalize/filter steps
leaves the code fences and the import line in place — the cleaned
prompt is the whitespace-collapsed original, not
`"Solve it. xxxxxxxxxxxxxxxxxxxxxxxxxxxxxx"`: `_normalize_strings` only
collapses whitespace; import/fence stripping lives in the unifier's
`normalize_prompt`. -/
theorem c2_scenario_counterexample :
    (localClean false [c2row]).map (fun r => r.prompt) =
      ["```python import os Solve it. xxxxxxxxxxxxxxxxxxxxxxxxxxxxxx```"] ∧
    ("```python import os Solve it. xxxxxxxxxxxxxxxxxxxxxxxxxxxxxx```"
      : String) ≠ "Solve it. xxxxxxxxxxxxxxxxxxxxxxxxxxxxxx" := by decide

/-- C2 (amended): the scenario-1 record maps to
`dataset_id = "42"`, `title = "Two Sum"`; local cleaning yields the
whitespace-collapsed prompt with fences and import retained, while the
unifier's `normalize_prompt` applied to the mapped prompt produces the
claimed `"Solve it. xxxxxxxxxxxxxxxxxxxxxxxxxxxxxx"`. -/
theorem c2_scenario :
    (localClean false [c2row]).map
        (fun r => (r.dataset_id, r.title, r.prompt)) =
      [("42", "Two Sum",
        "```python import os Solve it. xxxxxxxxxxxxxxxxxxxxxxxxxxxxxx```")] ∧
    normalize_prompt c2row.prompt =
      "Solve it. xxxxxxxxxxxxxxxxxxxxxxxxxxxxxx" := by decide

/-- C3: local cleaning is a fixed point on its own output — re-running
schema-typed normalization, empty-prompt filtering and deduplication on
a cleaned table returns exactly the same rows in the same order, and
the second deduplication removes zero rows. -/
theorem c3_localClean_idempotent :
    ∀ (f : Bool) (df : List Row),
      localClean f (localClean f df) = localClean f df ∧
      (dedupe (dropEmpties f (normalizeStrings (localClean f df)))).2 = 0 := by
  intro f df
  obtain ⟨h1, h2, h3⟩ := localClean_fixed f df
  constructor
  · show (dedupeAux rowKeyLocal []
        (dropEmpties f (normalizeStrings (localClean f df)))) = _
    rw [h1, h2]
    exact h3
  · show (dropEmpties f (normalizeStrings (localClean f df))).length -
      (dedupeAux rowKeyLocal []
        (dropEmpties f (normalizeStrings (localClean f df)))).length = 0
    rw [h1, h2, h3, Nat.sub_self]

/-- C4 (counterexample): `normalize_prompt` is not idempotent — on
`" ```abc"` the fence survives one pass (it sits neither at a line
start nor at a line end), but whitespace collapsing moves it to the
string start, so a second pass strips it. -/
theorem c4_normalizer_counterexample :
    normalize_prompt (normalize_prompt " ```abc") ≠
      normalize_prompt " ```abc" := by decide

/-- C4 (amended): `normalize_prompt` is idempotent on every input whose
normalized form neither starts nor ends with a ```` ``` ```` fence —
the output has no newlines and is whitespace-collapsed, so the import
pattern can never re-fire and the fence pattern can only re-fire at the
string edges. -/
theorem c4_normalizer_idempotent :
    ∀ x : String,
      startsFence (normalize_prompt x).data = false →
      endsFence (normalize_prompt x).data = false →
      normalize_prompt (normalize_prompt x) = normalize_prompt x := by
  intro x h1 h2
  by_cases hy : normalize_prompt x = ""
  · rw [hy]
    rfl
  · have hg := goodL_normalize_prompt x
    have hnl : '\n' ∉ (normalize_prompt x).data := wsOnly_noNl hg.1
    rw [normalize_prompt, if_neg hy, importSub_id hnl,
      fenceSub_id hnl h2 h1, squashL_eq_self hg]

theorem c4_normalizer_idempotent_witness :
    normalize_prompt
        (normalize_prompt "this prompt is plain text with no fences") =
      normalize_prompt "this prompt is plain text with no fences" :=
  c4_normalizer_idempotent "this prompt is plain text with no fences"
    (by decide) (by decide)

/-- C5: the unifier's global deduplication keeps exactly one row per
identity key — for every union input, each key occurring among the
filtered rows occurs exactly once in the output; and on the scenario-4
union (two sources sharing one duplicated row) the output holds one
copy of the duplicate while the distinct-source statistic is 2. -/
theorem c5_global_dedup :
    (∀ (rows : List Row) (k : String),
      (sparkUnify rows).countP (fun r => sparkKeyInput r == k) =
        if k ∈ (sparkNormFilter rows).map sparkKeyInput then 1 else 0) ∧
    ((sparkUnify ([c5rowA, c5dup] ++ [c5rowB, c5dup])).countP
        (fun r => sparkKeyInput r == sparkKeyInput (updPrompt c5dup)) = 1 ∧
      sourcesStat (sparkUnify ([c5rowA, c5dup] ++ [c5rowB, c5dup])) = 2) := by
  refine ⟨?_, by decide, by decide⟩
  intro rows k
  unfold sparkUnify
  rw [dedupeAux_countP]
  simp

/-- C6: schema totality — every registered mapper emits exactly the
nine unified columns, in the fixed order (so `_enforce_unified` leaves
its output unchanged), and re-enforcement on an arbitrary record always
yields exactly the unified column set in order (missing columns are
synthesised as `""` and extra columns are dropped). -/
theorem c6_schema_totality :
    (∀ (rec : String → PyVal)
        (m : (String → PyVal) → List (String × String)),
      m ∈ registryMappers →
        (m rec).map Prod.fst = UNIFIED_CODE_COLUMNS ∧
          enforceUnified (m rec) = m rec) ∧
    (∀ r : List (String × String),
      (enforceUnified r).map Prod.fst = UNIFIED_CODE_COLUMNS) := by
  constructor
  · intro rec m hm
    simp only [registryMappers, List.mem_cons, List.not_mem_nil,
      or_false] at hm
    rcases hm with h | h | h | h <;> subst h <;> exact ⟨rfl, rfl⟩
  · intro r
    unfold enforceUnified
    rw [List.map_map]
    exact List.map_id _

theorem c6_schema_totality_witness :
    (map_leetcode fun _ => PyVal.pnone).map Prod.fst =
        UNIFIED_CODE_COLUMNS ∧
      enforceUnified (map_leetcode fun _ => PyVal.pnone) =
        map_leetcode fun _ => PyVal.pnone :=
  c6_schema_totality.1 (fun _ => PyVal.pnone) map_leetcode
    (by simp [registryMappers])

/-- C7 (counterexample): the first-present-wins policy does not govern
every registered mapper — `map_apps` on the record
`{"question": "none"}` emits prompt `"none"` (Python `or` takes the
first *truthy* value, with no trimming and no missing-marker check),
while the spec's policy would emit `""` because `"none"` is the literal
missing marker. -/
theorem c7_first_present_counterexample :
    lookupA (map_apps c7rec) "prompt" = some "none" ∧
    specFirstPresent c7rec ["question", "prompt"] = "" ∧
    ("none" : String) ≠ "" := by decide

/-- C7 (amended): the `_first` helper used by the LeetCode mapper does
implement the spec's field-selection policy exactly — for every record
and candidate list it returns the first stringified, trimmed candidate
value that is non-empty and not `"none"` (case-insensitively), and `""`
when no candidate qualifies; the other mappers use raw `or`-chains
instead. -/
theorem c7_first_present :
    ∀ (rec : String → PyVal) (keys : List String),
      firstKey rec keys = specFirstPresent rec keys :=
  firstKey_eq_spec

/-- C8: the unifier's filter boundary — a row survives step 3 exactly
when its re-normalized prompt has length ≥ 20 and is not entirely
whitespace; in particular an exactly-19-character normalized prompt is
dropped and an exactly-20-non-whitespace-character one is kept. -/
theorem c8_filter_boundary :
    ∀ (rows : List Row) (r : Row), r ∈ rows →
      (updPrompt r ∈ sparkNormFilter rows ↔
        20 ≤ (normalize_prompt r.prompt).length ∧
          (normalize_prompt r.prompt).data.all isWs = false) := by
  intro rows r hr
  unfold sparkNormFilter
  constructor
  · intro hmem
    have hk := (List.mem_filter.mp hmem).2
    unfold sparkKeep at hk
    simp only [Bool.and_eq_true, decide_eq_true_eq, Bool.not_eq_true'] at hk
    exact hk
  · intro ⟨h1, h2⟩
    apply List.mem_filter.mpr
    refine ⟨List.mem_map.mpr ⟨r, hr, rfl⟩, ?_⟩
    unfold sparkKeep
    simp only [Bool.and_eq_true, decide_eq_true_eq, Bool.not_eq_true']
    exact ⟨h1, h2⟩

theorem c8_filter_boundary_witness :
    updPrompt c8row20 ∈ sparkNormFilter [c8row19, c8row20] :=
  (c8_filter_boundary [c8row19, c8row20] c8row20 (by simp)).mpr (by decide)

/-- C9: a missing RAW-tier input file is fatal and atomic for the Local
Cleaner — `clean_one` produces an error that reports the missing path
and no output value; when the input exists it produces the cleaned
output (no error for this reason). -/
theorem c9_missing_input :
    ∀ (fs : String → Option (List (List (String × String))))
      (dsk sp : String) (req : Bool),
      (fs (rawPath dsk sp) = none →
        clean_one fs dsk sp req =
          .error ("Missing input file: " ++ rawPath dsk sp)) ∧
      (∀ t, fs (rawPath dsk sp) = some t →
        clean_one fs dsk sp req =
          .ok (cleanPath dsk sp,
            localClean req (t.map fun r => rowOfAssoc (enforceUnified r)))) := by
  intro fs dsk sp req
  constructor
  · intro h
    unfold clean_one
    rw [h]
  · intro t h
    unfold clean_one
    rw [h]

theorem c9_missing_input_witness :
    clean_one c9fsEmpty "leetcode" "train" false =
        .error ("Missing input file: " ++ rawPath "leetcode" "train") ∧
      clean_one c9fsApps "apps" "train" true =
        .ok (cleanPath "apps" "train", []) :=
  ⟨(c9_missing_input c9fsEmpty "leetcode" "train" false).1 rfl,
    (c9_missing_input c9fsApps "apps" "train" true).2 [] (by decide)⟩

/-- C10: `_drop_empties` and `_dedupe` are pure row selections — their
output is a subsequence of the input (every surviving row is
field-for-field an input row, unmodified, in the original relative
order). -/
theorem c10_pure_selection :
    ∀ (df : List Row) (req : Bool),
      (dropEmpties req df).Sublist df ∧ (dedupe df).1.Sublist df := by
  intro df req
  constructor
  · unfold dropEmpties
    exact List.filter_sublist _
  · exact dedupeAux_sublist rowKeyLocal [] df

end EduAgent
